import Mathlib

/-!
Verification of the `pisa` data-processing pipeline.

This file gives a shallow embedding, in Lean 4, of the algorithmic core of the
repository (module `pisa_pipeline`) and proves/refutes the frozen claims about
it.  The embedding follows the Python source:

* `pisa_pipeline/data_processing/cleaner.py`      (CSVCleaner and its stages)
* `pisa_pipeline/data_processing/sav_loader.py`   (SAVloader two-pass extraction)
* `pisa_pipeline/data_processing/transformer.py`  (merge engine, level assigner,
  unwanted-column dropping)
* `pisa_pipeline/utils/algo_utils.py`             (column role detection)

Modelling conventions:
* pandas cell values are `Val` (rational number, string, or missing/NaN);
  machine floats are modelled by `ℚ` (exact arithmetic, same comparisons on the
  decimal literals appearing in the source);
* a pandas `Series`/column is a `Col` (name, dtype, list of values); a
  `DataFrame` is a `List Col` (column order is the pandas column order);
* Pearson-correlation *comparisons* `|r| > t` (resp. `|r_a| < |r_b|`) are
  embedded square-free: for `t ≥ 0`, `|r| > t ↔ cov² > t²·varX·varY`, and a
  zero variance (pandas: NaN correlation) makes every comparison false, exactly
  as float NaN comparisons do in Python.  All thresholds in the claims are
  nonnegative, so no theorem depends on the (unused) negative-threshold case.
-/

namespace Pisa

/-- A pandas cell: a numeric value, a string, or missing (NaN/None). -/
inductive Val where
  | num (q : ℚ)
  | str (s : String)
  | missing
deriving DecidableEq, Repr

/-- pandas column dtype as relevant to the cleaner: numeric, object, category. -/
inductive DType where
  | numeric
  | obj
  | cat
deriving DecidableEq, Repr

/-- A pandas column: its label, dtype and cell values (top to bottom). -/
structure Col where
  name : String
  dtype : DType
  vals : List Val
deriving DecidableEq, Repr

/-- `pd.isna` on one cell. -/
def Val.isMissing : Val → Bool
  | .missing => true
  | _ => false

/-- Value equality as pandas grouping sees it (numbers by numeric equality,
strings by string equality, missing only equal to missing). -/
def valEqB : Val → Val → Bool
  | .num a, .num b => a = b
  | .str a, .str b => a = b
  | .missing, .missing => true
  | _, _ => false

/-- The distinct values of a list (set semantics; used for `value_counts`
and `nunique`). -/
def distinctVals : List Val → List Val
  | [] => []
  | v :: rest =>
      if (distinctVals rest).any (valEqB v) then distinctVals rest
      else v :: distinctVals rest

/-- Boolean membership in a list of strings. -/
def memStr (s : String) : List String → Bool
  | [] => false
  | a :: rest => a = s || memStr s rest

/-- Numeric-dtype test. -/
def DType.isNumeric : DType → Bool
  | .numeric => true
  | _ => false

/-- Boolean test for "the first list starts the second".  (All string
primitives here are implemented structurally over the character list, so that
the kernel can evaluate concrete instances of the embedded programs.) -/
def prefB : List Char → List Char → Bool
  | [], _ => true
  | _ :: _, [] => false
  | a :: as, b :: bs => a = b && prefB as bs

/-- Python `str.startswith`. -/
def strStartsWith (s p : String) : Bool :=
  prefB p.toList s.toList

/-- Python `str.endswith`. -/
def strEndsWith (s p : String) : Bool :=
  prefB p.toList.reverse s.toList.reverse

/-- Replace every occurrence of `pat` (left to right, non-overlapping), with
a character-count fuel making the recursion structural; the fuel suffices
whenever `pat` is nonempty, which holds for every pattern in the source. -/
def replAux (fuel : Nat) (pat rep : List Char) (l : List Char) : List Char :=
  match fuel, l with
  | _, [] => []
  | 0, l => l
  | fuel + 1, c :: rest =>
      if prefB pat (c :: rest) then
        rep ++ replAux fuel pat rep ((c :: rest).drop pat.length)
      else c :: replAux fuel pat rep rest

/-- Python `str.replace` (for nonempty patterns). -/
def pyReplace (s pat rep : String) : String :=
  if pat.toList.isEmpty then s
  else String.mk (replAux s.toList.length pat.toList rep.toList s.toList)

/-- ASCII lowercasing of one character. -/
def chToLower (c : Char) : Char :=
  if 'A' ≤ c ∧ c ≤ 'Z' then Char.ofNat (c.toNat + 32) else c

/-- ASCII uppercasing of one character. -/
def chToUpper (c : Char) : Char :=
  if 'a' ≤ c ∧ c ≤ 'z' then Char.ofNat (c.toNat - 32) else c

/-- Python `str.lower` (ASCII; the labels in play are ASCII). -/
def strToLower (s : String) : String :=
  String.mk (s.toList.map chToLower)

/-- Python `str.upper` (ASCII). -/
def strToUpper (s : String) : String :=
  String.mk (s.toList.map chToUpper)

/-- Python `str.strip()` whitespace test (the characters that can actually
occur here; the cleaner has already replaced tab/newline by spaces). -/
def isPySpace (c : Char) : Bool :=
  c = ' ' || c = '\t' || c = '\n' || c = '\r'

/-- Python `str.strip()`. -/
def pyStrip (s : String) : String :=
  let l := s.toList.dropWhile isPySpace
  String.mk (l.reverse.dropWhile isPySpace).reverse

/-- Digits of a numeral to a natural number (callers ensure all-digit input). -/
def digitsToNat (l : List Char) : Nat :=
  l.foldl (fun n c => n * 10 + (c.toNat - '0'.toNat)) 0

/-- `pd.to_numeric(·, errors="coerce")` on one string cell: optional sign,
decimal digits with at most one point, at least one digit (accepts "1.", ".5").
Exponent/inf/nan spellings are not modelled; the pipeline treats columns
containing them as categorical either way. -/
def parseNumStr (s : String) : Option ℚ :=
  let cs := s.toList
  let signAndRest : ℚ × List Char :=
    match cs with
    | '-' :: r => (-1, r)
    | '+' :: r => (1, r)
    | r => (1, r)
  let sign := signAndRest.1
  let rest := signAndRest.2
  let ip := rest.takeWhile Char.isDigit
  let rest2 := rest.drop ip.length
  match rest2 with
  | [] => if ip.isEmpty then none else some (sign * digitsToNat ip)
  | '.' :: fp =>
      if fp.all Char.isDigit ∧ ¬(ip.isEmpty ∧ fp.isEmpty) then
        some (sign * (digitsToNat (ip ++ fp) : ℚ) / ((10 : ℚ) ^ fp.length))
      else none
  | _ => none

/-! ## cleaner.py: the five preprocessing stages

Each stage is a per-column map, mirroring the Python functions which
operate column by column (vectorised or via `Series.apply`). -/

/-- Column-name cleaning chain of `clean_all_names_and_values` (same
replacement order as the source: quote, comma, double quote, backslash,
newline, carriage return, tab, then strip). -/
def cleanNameStr (s : String) : String :=
  let s1 := pyReplace s "\x27" " "
  let s2 := pyReplace s1 "," ""
  let s3 := pyReplace s2 "\"" ""
  let s4 := pyReplace s3 "\\" ""
  let s5 := pyReplace s4 "\n" " "
  let s6 := pyReplace s5 "\r" " "
  let s7 := pyReplace s6 "\t" " "
  pyStrip s7

/-- Cell-value cleaning chain of `clean_all_names_and_values` (source order:
backslash first, then quote, comma, double quote, newline, cr, tab, strip). -/
def cleanValStr (s : String) : String :=
  let s1 := pyReplace s "\\" ""
  let s2 := pyReplace s1 "\x27" " "
  let s3 := pyReplace s2 "," ""
  let s4 := pyReplace s3 "\"" ""
  let s5 := pyReplace s4 "\n" " "
  let s6 := pyReplace s5 "\r" " "
  let s7 := pyReplace s6 "\t" " "
  pyStrip s7

/-- `str(x)` applied to a cell before cleaning (only string cells occur in
object/category columns of well-typed frames; a numeric cell in such a column
would be stringified by Python's `str`). -/
def valPyStr (v : Val) : String :=
  match v with
  | .str s => s
  | .num q => toString q
  | .missing => "nan"

/-- One column under `clean_all_names_and_values`: every column name is
cleaned; object/category columns additionally have each non-missing value
stringified and cleaned (`Series.apply` + assignment makes the result an
object column). -/
def cleanAllNamesCol (c : Col) : Col :=
  match c.dtype with
  | .numeric => { c with name := cleanNameStr c.name }
  | _ =>
      { name := cleanNameStr c.name
        dtype := .obj
        vals := c.vals.map fun v =>
          match v with
          | .missing => .missing
          | v => .str (cleanValStr (valPyStr v)) }

/-- `clean_all_names_and_values` over the frame. -/
def clean_all_names_and_values (df : List Col) : List Col :=
  df.map cleanAllNamesCol

/-- One column under `replace_missing_invalid`: only category columns are
touched; the marker strings become missing. -/
def replaceMissingInvalidCol (c : Col) : Col :=
  match c.dtype with
  | .cat =>
      { c with vals := c.vals.map fun v =>
          match v with
          | .str s =>
              if s = "Missing" ∨ s = "Invalid" ∨ s = "N/A" then .missing
              else .str s
          | v => v }
  | _ => c

/-- `replace_missing_invalid` over the frame. -/
def replace_missing_invalid (df : List Col) : List Col :=
  df.map replaceMissingInvalidCol

/-- One column under `clean_large_values`: numeric columns not in the
protected list have values strictly greater than 9990.0 masked to missing
(`col.mask(col > 9990.0)`; NaN comparisons are false, so missing stays). -/
def cleanLargeValuesCol (keepIds : List String) (c : Col) : Col :=
  if c.dtype.isNumeric && !memStr c.name keepIds then
    { c with vals := c.vals.map fun v =>
        match v with
        | .num q => if q > 9990 then .missing else .num q
        | v => v }
  else c

/-- `clean_large_values` over the frame (`keep_ids_list=None` means `[]`). -/
def clean_large_values (df : List Col) (keepIds : List String) : List Col :=
  df.map (cleanLargeValuesCol keepIds)

/-- `'\n'`/`'\r'` to the two-character escape `\n`, as in `sanitize_newlines`. -/
def replNewlines (s : String) : String :=
  pyReplace (pyReplace s "\n" "\\n") "\r" "\\n"

/-- One column under `sanitize_newlines`: object/category columns have string
values escaped and stripped; the `Series.apply` assignment turns a category
column into an object column.  (A numeric cell in such a column would raise in
Python and abort the whole cleaning via the `except` in `CSVCleaner.run`;
after `clean_all_names_and_values` those columns contain only strings and
missing, so the case is unreachable in `run` and the cell is left unchanged.) -/
def sanitizeNewlinesCol (c : Col) : Col :=
  match c.dtype with
  | .numeric => c
  | _ =>
      { c with
        dtype := .obj
        vals := c.vals.map fun v =>
          match v with
          | .str s => .str (pyStrip (replNewlines s))
          | v => v }

/-- `sanitize_newlines` over the frame. -/
def sanitize_newlines (df : List Col) : List Col :=
  df.map sanitizeNewlinesCol

/-- `pd.to_numeric(·, errors="coerce")` on one cell. -/
def parseVal (v : Val) : Option ℚ :=
  match v with
  | .num q => some q
  | .str s => parseNumStr s
  | .missing => none

/-- One column under `enforce_numeric_or_category`: if any originally
non-missing value fails numeric conversion the column becomes category with
values unchanged, otherwise it becomes numeric with the converted values. -/
def enforceNumericCol (c : Col) : Col :=
  let isMixed := c.vals.any fun v => !v.isMissing && (parseVal v).isNone
  if isMixed then
    { c with dtype := .cat }
  else
    { c with
      dtype := .numeric
      vals := c.vals.map fun v =>
        match parseVal v with
        | some q => .num q
        | none => .missing }

/-- `enforce_numeric_or_category` over the frame. -/
def enforce_numeric_or_category (df : List Col) : List Col :=
  df.map enforceNumericCol

/-! ## cleaner.py: correlation pruning -/

/-- The distinct strings of a list, keeping first occurrences. -/
def distinctStrs : List String → List String
  | [] => []
  | s :: rest =>
      if memStr s (distinctStrs rest) then distinctStrs rest
      else s :: distinctStrs rest

/-- Lexicographic order on character lists (Python string `<`). -/
def leChars : List Char → List Char → Bool
  | [], _ => true
  | _ :: _, [] => false
  | a :: as, b :: bs => if a = b then leChars as bs else decide (a < b)

/-- Insert into an ascending list. -/
def insertSorted (s : String) : List String → List String
  | [] => [s]
  | a :: rest =>
      if leChars s.toList a.toList then s :: a :: rest else a :: insertSorted s rest

/-- Ascending sort (what `LabelEncoder`/`np.unique` does to the classes). -/
def sortStrings (l : List String) : List String :=
  l.foldr insertSorted []

/-- `str(x)` as used by `encode_nominal_features` (`astype(str)`); pandas
renders NaN as the string "nan". -/
def valEncStr (v : Val) : String :=
  match v with
  | .str s => s
  | .num q => toString q
  | .missing => "nan"

/-- Index of a string in a list (0 when absent; `LabelEncoder.transform` only
queries fitted classes). -/
def idxOfStr : List String → String → Nat
  | [], _ => 0
  | a :: rest, s => if a = s then 0 else idxOfStr rest s + 1

/-- One column under `encode_nominal_features`: object/category columns are
stringified and label-encoded (classes are the sorted distinct strings, a
value is replaced by the index of its class); numeric columns are unchanged. -/
def encodeCol (c : Col) : Col :=
  match c.dtype with
  | .numeric => c
  | _ =>
      let classes := sortStrings (distinctStrs (c.vals.map valEncStr))
      { c with
        dtype := .numeric
        vals := c.vals.map fun v => .num (idxOfStr classes (valEncStr v)) }

/-- `encode_nominal_features` over the frame (the encoder map is unused). -/
def encode_nominal_features (df : List Col) : List Col :=
  df.map encodeCol

/-- Truthiness of `target_column and target_column in numeric_df.columns`. -/
def targetIn (target : Option String) (cols : List Col) : Bool :=
  match target with
  | some t => t ≠ "" && memStr t (cols.map Col.name)
  | none => false

/-- `select_numeric_features`: keep numeric-dtype columns, excluding the
target column when it is (truthy and) among them. -/
def select_numeric_features (df : List Col) (target : Option String) : List Col :=
  let numeric := df.filter fun c => c.dtype.isNumeric
  match target with
  | some t =>
      if targetIn (some t) numeric then numeric.filter fun c => c.name ≠ t
      else numeric
  | none => numeric

/-- `DataFrame.empty`: no columns or no rows. -/
def dfEmptyB (df : List Col) : Bool :=
  match df with
  | [] => true
  | c :: _ => c.vals.isEmpty

/-- Rows where both columns are non-missing (pandas correlation uses pairwise
complete observations). -/
def completePairs : List Val → List Val → List (ℚ × ℚ)
  | .num x :: xs, .num y :: ys => (x, y) :: completePairs xs ys
  | _ :: xs, _ :: ys => completePairs xs ys
  | _, _ => []

/-- `n·Σxy − Σx·Σy` over the complete pairs (`n²` times the covariance). -/
def covn (p : List (ℚ × ℚ)) : ℚ :=
  (p.length : ℚ) * (p.map fun u => u.1 * u.2).sum
    - (p.map Prod.fst).sum * (p.map Prod.snd).sum

/-- `n·Σx² − (Σx)²` over the first components (`n²` times the variance). -/
def varn (l : List ℚ) : ℚ :=
  (l.length : ℚ) * (l.map fun x => x * x).sum - l.sum * l.sum

/-- `|pearson(xs, ys)| > t`, square-free: both variances must be positive
(otherwise pandas produces NaN and the float comparison is false) and
`cov² > t²·varX·varY`.  Faithful for `t ≥ 0`. -/
def corrAbsGt (xs ys : List Val) (t : ℚ) : Bool :=
  let p := completePairs xs ys
  let vx := varn (p.map Prod.fst)
  let vy := varn (p.map Prod.snd)
  vx > 0 && vy > 0 && covn p ^ 2 > t ^ 2 * vx * vy

/-- `|pearson(as, ts)| < |pearson(bs, ts)|`, square-free (false when either
correlation is NaN, as for Python float comparisons).  Used by the
target-directed branch of `drop_correlated_columns`. -/
def corrAbsLt (as bs ts : List Val) : Bool :=
  let pa := completePairs as ts
  let pb := completePairs bs ts
  let da := varn (pa.map Prod.fst) * varn (pa.map Prod.snd)
  let db := varn (pb.map Prod.fst) * varn (pb.map Prod.snd)
  da > 0 && db > 0 && covn pa ^ 2 * db < covn pb ^ 2 * da

/-- `find_highly_correlated_pairs` on the (encoded, numeric) columns: all
pairs `(columns[i], columns[j])` with `j < i` whose absolute correlation
exceeds the threshold.  The source iterates `i` outer / `j` inner; we recurse
on the earlier column first, which enumerates the same set of pairs (each
pair still listed as (later column, earlier column)); only set membership of
the result is ever used downstream (the drop *set*). -/
def find_highly_correlated_pairs (t : ℚ) : List Col → List (Col × Col)
  | [] => []
  | c :: rest =>
      (rest.filterMap fun d =>
        if corrAbsGt d.vals c.vals t then some (d, c) else none)
        ++ find_highly_correlated_pairs t rest

/-- Insert-if-absent, modelling accumulation into a Python `set` (membership
is what matters; Python set iteration order is unspecified). -/
def insertName (acc : List String) (n : String) : List String :=
  if memStr n acc then acc else acc ++ [n]

/-- The loop body of `drop_correlated_columns`: picks which member of a
correlated pair joins the drop set.  The target branch requires
`target_column in numeric_dataframe.columns`, and compares the two members'
absolute correlation with the target. -/
def corrChooseDrop (ncols : List Col) (target : Option String)
    (p : Col × Col) : String :=
  if targetIn target ncols then
    match ncols.find? (fun c => (some c.name : Option String) = target) with
    | some tc =>
        if corrAbsLt p.1.vals p.2.vals tc.vals then p.1.name else p.2.name
    | none => p.2.name
  else p.2.name

/-- `drop_correlated_columns`: encode, select numeric features minus target,
find correlated pairs, accumulate one column name per pair into the drop set,
drop those labels from the original frame.  (The `except` path of the source
cannot fire in the embedding; it would also return the frame unchanged.) -/
def drop_correlated_columns (df : List Col) (t : ℚ)
    (target : Option String) : List Col × List String :=
  let enc := encode_nominal_features df
  let ncols := select_numeric_features enc target
  if dfEmptyB ncols then (df, [])
  else
    let pairs := find_highly_correlated_pairs t ncols
    let dropped := pairs.foldl
      (fun acc p => insertName acc (corrChooseDrop ncols target p)) []
    (df.filter fun c => !memStr c.name dropped, dropped)

/-! ## cleaner.py: uniformity and missingness pruning -/

/-- Count of non-missing values in a column. -/
def validCount (c : Col) : Nat :=
  (c.vals.filter fun v => !v.isMissing).length

/-- Count of the most frequent non-missing value
(`value_counts(dropna=True).max()`). -/
def topFreq (c : Col) : Nat :=
  ((distinctVals (c.vals.filter fun v => !v.isMissing)).map
    fun v => (c.vals.filter (valEqB v)).length).foldr max 0

/-- Drop condition of `drop_highly_uniform_columns`: some non-missing values
exist and their top frequency ratio is `≥ threshold` (note: not strict). -/
def uniformPred (t : ℚ) (c : Col) : Bool :=
  validCount c ≠ 0 && (topFreq c : ℚ) / (validCount c : ℚ) ≥ t

/-- `drop_highly_uniform_columns`: returns the frame with the offending
labels dropped, and the list of dropped labels. -/
def drop_highly_uniform_columns (df : List Col) (t : ℚ) :
    List Col × List String :=
  let dropped := (df.filter (uniformPred t)).map Col.name
  (df.filter fun c => !memStr c.name dropped, dropped)

/-- Drop condition of `drop_columns_with_missing_threshold`: the fraction of
missing values over all rows is strictly greater than the threshold (a
zero-row frame has NaN mean, which compares false). -/
def missingPred (t : ℚ) (c : Col) : Bool :=
  c.vals.length ≠ 0 &&
    (((c.vals.filter Val.isMissing).length : ℚ) / (c.vals.length : ℚ) > t)

/-- `drop_columns_with_missing_threshold`. -/
def drop_columns_with_missing_threshold (df : List Col) (t : ℚ) :
    List Col × List String :=
  let dropped := (df.filter (missingPred t)).map Col.name
  (df.filter fun c => !memStr c.name dropped, dropped)

/-! ## cleaner.py: CSVCleaner.run -/

/-- The five value/type preprocessing stages of `CSVCleaner.run`, in source
order. -/
def preprocessAll (protectedIds : List String) (df : List Col) : List Col :=
  enforce_numeric_or_category
    (sanitize_newlines
      (clean_large_values
        (replace_missing_invalid
          (clean_all_names_and_values df))
        protectedIds))

/-- The five preprocessing stages on one column (each stage is a per-column
map, so `preprocessAll` is the map of this composition). -/
def preprocessCol (ids : List String) (c : Col) : Col :=
  enforceNumericCol
    (sanitizeNewlinesCol
      (cleanLargeValuesCol ids
        (replaceMissingInvalidCol (cleanAllNamesCol c))))

/-- Result of one `CSVCleaner.run`: final frame plus the three per-stage drop
lists (the observable "dropped N columns" reports). -/
structure CleanRun where
  df : List Col
  droppedCorr : List String
  droppedUniform : List String
  droppedMissing : List String
deriving DecidableEq, Repr

/-- `CSVCleaner.run`: preprocessing, then correlation, uniformity and
missingness pruning, with the default thresholds of the signature being 1.0. -/
def csvCleanerRun (df : List Col) (protectedIds : List String)
    (missT uniT corrT : ℚ) (target : Option String) : CleanRun :=
  let d0 := preprocessAll protectedIds df
  let pc := drop_correlated_columns d0 corrT target
  let pu := drop_highly_uniform_columns pc.1 uniT
  let pm := drop_columns_with_missing_threshold pu.1 missT
  ⟨pm.1, pc.2, pu.2, pm.2⟩

/-! ## sav_loader.py: two-pass country-row extraction -/

/-- Split a list into consecutive chunks of `n` elements (the last chunk may
be shorter), as `pyreadstat.read_file_in_chunks` yields the file.  Structural
recursion on a fuel equal to the list length, which suffices for every
positive chunk size (the loader uses 100000 and 10000). -/
def chunkListAux (fuel n : Nat) (l : List α) : List (List α) :=
  match fuel, l with
  | _, [] => []
  | 0, _ => []
  | fuel + 1, l => l.take n :: chunkListAux fuel n (l.drop n)

/-- Chunked view of a list. -/
def chunkList (n : Nat) (l : List α) : List (List α) :=
  chunkListAux l.length n l

/-- `SAVloader.find_country_rows`: stream the key column in chunks, keep the
absolute indices whose (non-missing) value, uppercased, equals the country
code (`run` uppercases the code before the comparison). -/
def find_country_rows (chunksize : Nat) (cnt : List (Option String))
    (countryCode : String) : List Nat :=
  ((chunkList chunksize cnt).foldl
    (fun (acc : List Nat × Nat) chunk =>
      let matchRows := (List.range chunk.length).filterMap fun i =>
        match chunk.get? i with
        | some (some s) =>
            if strToUpper s = countryCode then some (acc.2 + i) else none
        | _ => none
      (acc.1 ++ matchRows, acc.2 + chunk.length))
    ([], 0)).1

/-- The chunk loop of `SAVloader.load_rows_from_sav`: skip chunks before the
span, break at chunks past it, and copy `iloc[relative_start:relative_end]`
from the rest (`max(0, start - cs)` is Lean's truncated `Nat` subtraction). -/
def loadLoop (start stop : Nat) : List (List α) → Nat → List α
  | [], _ => []
  | chunk :: rest, offset =>
      let cs := offset
      let ce := offset + chunk.length
      if ce ≤ start then loadLoop start stop rest (offset + chunk.length)
      else if stop ≤ cs then []
      else
        let rs := start - cs
        let re := min chunk.length (stop - cs)
        (chunk.drop rs).take (re - rs)
          ++ loadLoop start stop rest (offset + chunk.length)

/-- `SAVloader.load_rows_from_sav`: an empty index list yields an empty
frame; otherwise the span `[min indices, max indices + 1)` is re-streamed in
chunks (default size 10000 in the source). -/
def load_rows_from_sav (chunksize : Nat) (rows : List α)
    (rowIndices : List Nat) : List α :=
  match rowIndices with
  | [] => []
  | i0 :: _ =>
      let start := rowIndices.foldl min i0
      let stop := rowIndices.foldl max 0 + 1
      loadLoop start stop (chunkList chunksize rows) 0

/-! ## transformer.py: data model (row-oriented) and merge engine -/

/-- A DataFrame for the merge engine: ordered column labels plus rows. -/
structure DF where
  cols : List String
  rows : List (List Val)
deriving DecidableEq, Repr

/-- Index of a column label (first occurrence). -/
def DF.colIdx (df : DF) (name : String) : Nat :=
  idxOfStr df.cols name

/-- Keep the columns at the positions whose label satisfies `p`, in order. -/
def selectColsByPred (df : DF) (p : String → Bool) : DF :=
  let keep := (List.range df.cols.length).filter fun i => p (df.cols.getD i "")
  ⟨keep.map fun i => df.cols.getD i "",
   df.rows.map fun r => keep.map fun i => r.getD i .missing⟩

/-- Reorder/select columns by label list (`df[cols]`). -/
def selectColsByNames (df : DF) (names : List String) : DF :=
  ⟨names, df.rows.map fun r => names.map fun n => r.getD (df.colIdx n) .missing⟩

/-- `pd.merge(base, other, on=key, how="left", suffixes=("", "_dup"))`:
every base row is paired with each other-row having an equal key value (pandas
pairs missing keys with missing keys), or padded with missing when none
does; right columns other than the key are appended, renamed with the
`_dup` suffix when they collide with an existing base label. -/
def pdMergeLeft (base other : DF) (key : String) : DF :=
  let rightIdx := (List.range other.cols.length).filter
    fun j => other.cols.getD j "" ≠ key
  let rename := fun c => if memStr c base.cols then c ++ "_dup" else c
  let outCols := base.cols ++ rightIdx.map fun j => rename (other.cols.getD j "")
  let ki := base.colIdx key
  let kj := other.colIdx key
  let rows := base.rows.flatMap fun r =>
    let kv := r.getD ki .missing
    let matchRows := other.rows.filter fun s => valEqB (s.getD kj .missing) kv
    if matchRows.isEmpty then
      [r ++ rightIdx.map fun _ => Val.missing]
    else
      matchRows.map fun s => r ++ rightIdx.map fun j => s.getD j .missing
  ⟨outCols, rows⟩

/-- Drop the `*_dup` columns, as the loop body of `merge_with_base` does. -/
def dropDupCols (df : DF) : DF :=
  selectColsByPred df fun c => ¬ strEndsWith c "_dup"

/-- Move "Plausible Value 1 in Mathematics" to the end when present. -/
def movePV1 (df : DF) : DF :=
  let pv := "Plausible Value 1 in Mathematics"
  if memStr pv df.cols then
    selectColsByNames df ((df.cols.filter fun c => c ≠ pv) ++ [pv])
  else df

/-- One iteration of the merge loop of `merge_with_base`. -/
def mergeStep (acc : DF) (df : DF) (key : String) : DF :=
  movePV1 (dropDupCols (pdMergeLeft acc df key))

/-- `merge_with_base`: fold every non-base frame into the base along the
per-frame keys.  `none` models the raising paths of the source: base name
absent (ValueError), and a key count mismatching the number of other frames
(the `len(keys) == 1` repair path crashes with a NameError — `other_names` is
used before assignment — and any other mismatch raises ValueError). -/
def merge_with_base (baseName : String) (dfs : List (String × DF))
    (keys : List String) : Option DF :=
  match dfs.find? fun p => p.1 = baseName with
  | none => none
  | some base =>
      if keys.length ≠ dfs.length - 1 then none
      else
        let others := dfs.filter fun p => p.1 ≠ baseName
        some ((others.zip keys).foldl (fun m p => mergeStep m p.1.2 p.2) base.2)

/-- `determine_merge_keys`: the first user candidate present in both frames;
otherwise the first common column.  (The source takes
`list(set(df1.columns) & set(df2.columns))[0]`, whose order Python does not
specify; the embedding fixes the deterministic choice "first column of `df1`
also in `df2`", the order of the underlying column listing.) -/
def determine_merge_keys (df1 df2 : DF) (mergeKeys : Option (List String)) :
    Option String :=
  let user := match mergeKeys with
    | some ks => ks.find? fun k => memStr k df1.cols && memStr k df2.cols
    | none => none
  match user with
  | some k => some k
  | none => df1.cols.find? fun c => memStr c df2.cols

/-! ## transformer.py: level assignment and unwanted-column dropping -/

/-- `assign_math_level`: missing maps to missing, otherwise the first
satisfied `>=` cutoff from the top, as in the source's if/elif chain. -/
def assign_math_level (score : Option ℚ) : Option String :=
  match score with
  | none => none
  | some s =>
      if s ≥ 66930 / 100 then some "Level 6"
      else if s ≥ 60704 / 100 then some "Level 5"
      else if s ≥ 54468 / 100 then some "Level 4"
      else if s ≥ 48238 / 100 then some "Level 3"
      else if s ≥ 42007 / 100 then some "Level 2"
      else if s ≥ 35877 / 100 then some "Level 1"
      else some "Below Level 1"

/-- The default `keep_cols` of `Transformer.drop_unwanted_columns`:
"Plausible Value 1 in Mathematics" … "Plausible Value 10 in Mathematics". -/
def defaultKeepCols : List String :=
  (List.range 10).map fun a =>
    "Plausible Value " ++ toString (a + 1) ++ " in Mathematics"

/-- The automatic drop test of `drop_unwanted_columns`: lowercased label
starts with "final", or starts with "plausible value" without being in the
keep list (exact-case membership). -/
def unwantedPred (keepCols : List String) (c : String) : Bool :=
  let low := strToLower c
  strStartsWith low "final"
    || (strStartsWith low "plausible value" && !memStr c keepCols)

/-- `Transformer.drop_unwanted_columns`: user-requested labels present in the
frame plus the automatically unwanted labels are dropped. -/
def drop_unwanted_columns (df : DF) (userDropCols : List String)
    (keepCols : List String) : DF :=
  let toDrop := userDropCols.filter (fun c => memStr c df.cols)
    ++ df.cols.filter (unwantedPred keepCols)
  selectColsByPred df fun c => !memStr c toDrop

/-- Step 4 of `Transformer.run`: `drop_unwanted_columns` applied to every
frame of the dictionary with default arguments (no user drops, default keep
list) — the source calls `self.drop_unwanted_columns(v)`. -/
def transformerRunStep4 (dfs : List (String × DF)) : List (String × DF) :=
  dfs.map fun p => (p.1, drop_unwanted_columns p.2 [] defaultKeepCols)

/-! ## algo_utils.py: role detection -/

/-- `normalize`: lowercase and keep only `[a-z0-9]`. -/
def normalizeStr (s : String) : String :=
  String.mk ((s.toList.map chToLower).filter fun c => c.isAlpha || c.isDigit)

/-- `keep_words`: lowercase, replace every character outside `[a-z0-9 ]` by a
space (so word boundaries survive). -/
def keepWordsStr (s : String) : String :=
  String.mk (s.toList.map fun c =>
    let lc := chToLower c
    if lc.isAlpha || lc.isDigit then lc else ' ')

/-- Split a character list at spaces (like `str.split(" ")`, keeping empty
tokens). -/
def splitSp : List Char → List (List Char)
  | [] => [[]]
  | c :: rest =>
      let r := splitSp rest
      if c = ' ' then [] :: r
      else
        match r with
        | [] => [[c]]
        | t :: ts => (c :: t) :: ts

/-- Boolean contiguous-sublist test (Python's `in` on strings). -/
def infB (a : List Char) : List Char → Bool
  | [] => prefB a []
  | b :: bs => prefB a (b :: bs) || infB a bs

/-- `score_column`: +2 when the keyword occurs as a whole word of the
word-preserving form (`\b…\b`; the keywords of this program are single
alphanumeric tokens, for which the regex match is exactly token membership),
else +1 when the compressed keyword is a substring of the compressed name. -/
def score_column (colName : String) (kws : List String) : Nat :=
  kws.foldl
    (fun acc kw =>
      let kwRaw := (keepWordsStr kw).toList
      let kwNorm := (normalizeStr kw).toList
      if kwRaw ∈ splitSp (keepWordsStr colName).toList then acc + 2
      else if infB kwNorm (normalizeStr colName).toList then acc + 1
      else acc)
    0

/-- The scanning loop of `find_best_column`: track the maximum score and the
names attaining it (ties are only collected for positive scores). -/
def fbLoop (kws : List String) : List Col → Nat → List String → Nat × List String
  | [], m, best => (m, best)
  | c :: rest, m, best =>
      let s := score_column c.name kws
      if s > m then fbLoop kws rest s [c.name]
      else if s = m ∧ s > 0 then fbLoop kws rest m (best ++ [c.name])
      else fbLoop kws rest m best

/-- Distinct non-missing values of a column (`Series.nunique`). -/
def nunique (c : Col) : Nat :=
  (distinctVals (c.vals.filter fun v => !v.isMissing)).length

/-- `df[c].nunique()` looked up by label. -/
def nuniqueByName (df : List Col) (nm : String) : Nat :=
  match df.find? fun c => c.name = nm with
  | some c => nunique c
  | none => 0

/-- Python `max(l, key=f)` on a nonempty list: first maximiser wins. -/
def pyMaxBy (f : String → Nat) (c : String) (rest : List String) : String :=
  rest.foldl (fun best x => if f x > f best then x else best) c

/-- `find_best_column`: none when the maximum score is zero, the sole best
column when unique, otherwise the tie-break by maximal `nunique`. -/
def find_best_column (df : List Col) (kws : List String) : Option String :=
  let r := fbLoop kws df 0 []
  if r.1 = 0 then none
  else
    match r.2 with
    | [] => none
    | [c] => some c
    | c :: rest => some (pyMaxBy (nuniqueByName df) c rest)

/-- The maximum keyword score over a frame's column names (the value the
scanning loop of `find_best_column` tracks). -/
def maxKeywordScore (df : List Col) (kws : List String) : Nat :=
  (df.map fun c => score_column c.name kws).foldr max 0

/-- Python truthiness of an optional string. -/
def truthyStr : Option String → Bool
  | some s => s ≠ ""
  | none => false

/-- `x.strip() if x else None`. -/
def stripOpt : Option String → Option String
  | some s => if s ≠ "" then some (pyStrip s) else none
  | none => none

/-- The two possible shapes of `detect_columns`'s return value: Python
returns a 3-tuple or a 4-tuple depending on the path taken. -/
inductive DetectResult where
  | three (score school student : Option String)
  | four (score school student leveled : Option String)
deriving DecidableEq, Repr

/-- The role keyword sets of `detect_columns`. -/
def scoreKeywords : List String := ["plausible", "math", "value"]

/-- School-id keywords. -/
def schoolKeywords : List String := ["school", "id"]

/-- Student-id keywords. -/
def studentKeywords : List String := ["student", "id"]

/-- `detect_columns`: detect the three roles, strip them, and only when
`detect_math_level` is set *and* the stripped score column is truthy, search
a leveled-score column and return the 4-tuple; every other path returns the
3-tuple. -/
def detect_columns (df : List Col) (detectMathLevel : Bool) : DetectResult :=
  let score := stripOpt (find_best_column df scoreKeywords)
  let school := stripOpt (find_best_column df schoolKeywords)
  let student := stripOpt (find_best_column df studentKeywords)
  if detectMathLevel && truthyStr score then
    let ns := (normalizeStr (score.getD "")).toList
    let leveled := (df.find? fun c =>
        infB ns (normalizeStr c.name).toList
          && infB "level".toList (normalizeStr c.name).toList).map
      fun c => pyStrip c.name
    .four score school student leveled
  else .three score school student

/-- The spec's cutoff table for `LevelAssigner`, written as its half-open
intervals (inclusive lower bound, exclusive upper bound, open-ended top). -/
def specLevel (s : ℚ) : String :=
  if s < 35877 / 100 then "Below Level 1"
  else if 35877 / 100 ≤ s ∧ s < 42007 / 100 then "Level 1"
  else if 42007 / 100 ≤ s ∧ s < 48238 / 100 then "Level 2"
  else if 48238 / 100 ≤ s ∧ s < 54468 / 100 then "Level 3"
  else if 54468 / 100 ≤ s ∧ s < 60704 / 100 then "Level 4"
  else if 60704 / 100 ≤ s ∧ s < 66930 / 100 then "Level 5"
  else "Level 6"

/-! ## Concrete frames used by the counterexamples and witnesses -/

/-- C8 boundary input: a column with exactly 50 percent missing values. -/
def halfMissingCol : Col := ⟨"h", .numeric, [.num 1, .missing]⟩

/-- C2 failing input, target column: t = (1,2,3,4). -/
def colT : Col := ⟨"t", .numeric, [.num 1, .num 2, .num 3, .num 4]⟩

/-- C2 failing input: x = (1,2,3,4), duplicating the target. -/
def colX : Col := ⟨"x", .numeric, [.num 1, .num 2, .num 3, .num 4]⟩

/-- C2 failing input: y = (10,20,30,41); `|corr(x,y)| ≈ 0.9997 > 0.99` while
`|corr(y,t)| < |corr(x,t)| = 1`. -/
def colY : Col := ⟨"y", .numeric, [.num 10, .num 20, .num 30, .num 41]⟩

/-- C2 failing frame: the target followed by the correlated pair. -/
def c2df : List Col := [colT, colX, colY]

/-- C3 counterexample frame: one fully uniform numeric column. -/
def c3df : List Col := [⟨"a", .numeric, [.num 1, .num 1]⟩]

/-- C6 counterexample frame: an object column of numeric strings with an SPSS
sentinel value; type coercion runs after sentinel masking, so the 9999 is
masked only on a second run. -/
def c6df : List Col := [⟨"a", .obj, [.str "9999", .str "123"]⟩]

/-- C6 witness frame: a plain numeric column fixed by the preprocessing. -/
def c6fixdf : List Col := [⟨"b", .numeric, [.num 1, .num 2]⟩]

/-- C1 failing input: the key column of a 3-row file, with the country rows
scattered non-contiguously. -/
def c1Cnt : List (Option String) := [some "MEX", some "USA", some "MEX"]

/-- C1 failing input: the full rows of the same file. -/
def c1Rows : List String := ["row0", "row1", "row2"]

/-- C4 counterexample: the base table (one row). -/
def c4base : DF := ⟨["id", "score"], [[.num 1, .num 10]]⟩

/-- C4 counterexample: a satellite with a duplicated id. -/
def c4satDup : DF := ⟨["id", "extra"], [[.num 1, .num 5], [.num 1, .num 6]]⟩

/-- C4 witness satellite: unique ids, and id 2 of the base absent. -/
def c4sat : DF := ⟨["id", "extra"], [[.num 1, .num 5]]⟩

/-- C4 witness base with a row whose id is absent from the satellite. -/
def c4base2 : DF := ⟨["id", "score"], [[.num 1, .num 10], [.num 2, .num 20]]⟩

/-- C7 witness: two columns tying on the student keywords, the first with one
distinct value, the second with two. -/
def tieDf : List Col :=
  [⟨"student id", .obj, [.num 1, .num 1]⟩, ⟨"id student", .obj, [.num 1, .num 2]⟩]

/-! ## General lemmas about the embedding -/

theorem valEqB_iff {v w : Val} : valEqB v w = true ↔ v = w := by
  cases v <;> cases w <;> simp [valEqB]

theorem memStr_iff {s : String} {l : List String} : memStr s l = true ↔ s ∈ l := by
  induction l with
  | nil => simp [memStr]
  | cons a rest ih =>
      simp only [memStr, Bool.or_eq_true, decide_eq_true_eq, ih, List.mem_cons]
      constructor
      · intro h
        rcases h with h | h
        · exact Or.inl h.symm
        · exact Or.inr h
      · intro h
        rcases h with h | h
        · exact Or.inl h.symm
        · exact Or.inr h

theorem map_eq_self_mem {α : Type} {f : α → α} {l : List α} (h : l.map f = l) :
    ∀ x ∈ l, f x = x := by
  induction l with
  | nil => simp
  | cons a rest ih =>
      simp only [List.map_cons, List.cons.injEq] at h
      intro x hx
      rcases List.mem_cons.mp hx with hx | hx
      · exact hx ▸ h.1
      · exact ih h.2 x hx

theorem map_eq_self_of_mem {α : Type} {f : α → α} {l : List α}
    (h : ∀ x ∈ l, f x = x) : l.map f = l := by
  induction l with
  | nil => rfl
  | cons a rest ih =>
      simp only [List.map_cons]
      rw [h a (by simp), ih fun x hx => h x (List.mem_cons_of_mem _ hx)]

theorem map_getD_range {α : Type} (r : List α) (d : α) :
    (List.range r.length).map (fun i => r.getD i d) = r := by
  induction r with
  | nil => rfl
  | cons a tl ih =>
      rw [List.length_cons, List.range_succ_eq_map]
      simp only [List.map_cons, List.getD_cons_zero, List.map_map, Function.comp_def,
        List.getD_cons_succ]
      rw [ih]

theorem selectIdx_filter {α : Type} (l : List α) (d : α) (p : α → Bool) :
    ((List.range l.length).filter fun i => p (l.getD i d)).map (fun i => l.getD i d)
      = l.filter p := by
  induction l with
  | nil => rfl
  | cons a tl ih =>
      simp only [List.length_cons, List.range_succ_eq_map, List.filter_cons,
        List.getD_cons_zero, List.filter_map, List.map_map, Function.comp_def,
        List.getD_cons_succ]
      have ih2 : List.map (fun i => (tl[i]?).getD d) (List.filter (fun i => p ((tl[i]?).getD d)) (List.range tl.length)) = List.filter p tl := by
        simpa [List.getD] using ih
      by_cases hpa : p a
      · simp [hpa, List.getElem?_cons_succ, ih2, Function.comp_def]
      · simp [hpa, List.getElem?_cons_succ, ih2, Function.comp_def]

/-! ## C5: assign_math_level -/

/-- C5: the level-assignment function maps missing to missing and every
numeric score by the spec's fixed cutoffs, inclusive on the lower bound and
exclusive on the upper bound; in particular 669.30 gives "Level 6" and
669.29999 gives "Level 5". -/
theorem assign_math_level_matches_spec :
    (∀ q : ℚ, assign_math_level (some q) = some (specLevel q))
    ∧ assign_math_level none = none
    ∧ assign_math_level (some (66930 / 100)) = some "Level 6"
    ∧ assign_math_level (some (66929999 / 100000)) = some "Level 5" := by
  have key : ∀ q : ℚ, assign_math_level (some q) = some (specLevel q) := by
    intro q
    simp only [assign_math_level]
    split_ifs with h1 h2 h3 h4 h5 h6
    · have c1 : ¬(q < 35877 / 100) := by linarith
      have c2 : ¬(35877 / 100 ≤ q ∧ q < 42007 / 100) := by rintro ⟨-, hb⟩; linarith
      have c3 : ¬(42007 / 100 ≤ q ∧ q < 48238 / 100) := by rintro ⟨-, hb⟩; linarith
      have c4 : ¬(48238 / 100 ≤ q ∧ q < 54468 / 100) := by rintro ⟨-, hb⟩; linarith
      have c5 : ¬(54468 / 100 ≤ q ∧ q < 60704 / 100) := by rintro ⟨-, hb⟩; linarith
      have c6 : ¬(60704 / 100 ≤ q ∧ q < 66930 / 100) := by rintro ⟨-, hb⟩; linarith
      simp [specLevel, c1, c2, c3, c4, c5, c6]
    · have c1 : ¬(q < 35877 / 100) := by linarith
      have c2 : ¬(35877 / 100 ≤ q ∧ q < 42007 / 100) := by rintro ⟨-, hb⟩; linarith
      have c3 : ¬(42007 / 100 ≤ q ∧ q < 48238 / 100) := by rintro ⟨-, hb⟩; linarith
      have c4 : ¬(48238 / 100 ≤ q ∧ q < 54468 / 100) := by rintro ⟨-, hb⟩; linarith
      have c5 : ¬(54468 / 100 ≤ q ∧ q < 60704 / 100) := by rintro ⟨-, hb⟩; linarith
      have c6 : 60704 / 100 ≤ q ∧ q < 66930 / 100 := ⟨by linarith, by linarith⟩
      simp [specLevel, c1, c2, c3, c4, c5, c6]
    · have c1 : ¬(q < 35877 / 100) := by linarith
      have c2 : ¬(35877 / 100 ≤ q ∧ q < 42007 / 100) := by rintro ⟨-, hb⟩; linarith
      have c3 : ¬(42007 / 100 ≤ q ∧ q < 48238 / 100) := by rintro ⟨-, hb⟩; linarith
      have c4 : ¬(48238 / 100 ≤ q ∧ q < 54468 / 100) := by rintro ⟨-, hb⟩; linarith
      have c5 : 54468 / 100 ≤ q ∧ q < 60704 / 100 := ⟨by linarith, by linarith⟩
      simp [specLevel, c1, c2, c3, c4, c5]
    · have c1 : ¬(q < 35877 / 100) := by linarith
      have c2 : ¬(35877 / 100 ≤ q ∧ q < 42007 / 100) := by rintro ⟨-, hb⟩; linarith
      have c3 : ¬(42007 / 100 ≤ q ∧ q < 48238 / 100) := by rintro ⟨-, hb⟩; linarith
      have c4 : 48238 / 100 ≤ q ∧ q < 54468 / 100 := ⟨by linarith, by linarith⟩
      simp [specLevel, c1, c2, c3, c4]
    · have c1 : ¬(q < 35877 / 100) := by linarith
      have c2 : ¬(35877 / 100 ≤ q ∧ q < 42007 / 100) := by rintro ⟨-, hb⟩; linarith
      have c3 : 42007 / 100 ≤ q ∧ q < 48238 / 100 := ⟨by linarith, by linarith⟩
      simp [specLevel, c1, c2, c3]
    · have c1 : ¬(q < 35877 / 100) := by linarith
      have c2 : 35877 / 100 ≤ q ∧ q < 42007 / 100 := ⟨by linarith, by linarith⟩
      simp [specLevel, c1, c2]
    · have c1 : q < 35877 / 100 := by push_neg at *; linarith
      simp [specLevel, c1]
  refine ⟨key, rfl, ?_, ?_⟩
  · rw [key]
    norm_num [specLevel]
  · rw [key]
    norm_num [specLevel]

/-! ## C8: missingness pruning is strict-greater -/

/-- C8: missingness pruning drops exactly the columns whose fraction of
missing values over all rows is strictly greater than the threshold; a column
with exactly 50 percent missing is kept at threshold 0.5 and dropped at
threshold 0.49. -/
theorem missing_pruning_strict_boundary :
    (∀ (df : List Col) (t : ℚ) (c : Col), c ∈ df → (df.map Col.name).Nodup →
      (c.name ∈ (drop_columns_with_missing_threshold df t).2 ↔
        c.vals.length ≠ 0 ∧
          ((c.vals.filter Val.isMissing).length : ℚ) / (c.vals.length : ℚ) > t))
    ∧ (drop_columns_with_missing_threshold [halfMissingCol] (1 / 2)).2 = []
    ∧ (drop_columns_with_missing_threshold [halfMissingCol] (49 / 100)).2 = ["h"] := by
  refine ⟨?_, ?_, ?_⟩
  · intro df t c hc hnd
    have hpred : missingPred t c = true ↔
        c.vals.length ≠ 0 ∧
          ((c.vals.filter Val.isMissing).length : ℚ) / (c.vals.length : ℚ) > t := by
      simp [missingPred]
    constructor
    · intro hmem
      simp only [drop_columns_with_missing_threshold, List.mem_map] at hmem
      obtain ⟨c', hc', hname⟩ := hmem
      have hc'df := (List.mem_filter.mp hc').1
      have hc'pred := (List.mem_filter.mp hc').2
      have : c' = c := List.inj_on_of_nodup_map hnd hc'df hc hname
      exact hpred.mp (this ▸ hc'pred)
    · intro hsem
      simp only [drop_columns_with_missing_threshold, List.mem_map]
      exact ⟨c, List.mem_filter.mpr ⟨hc, hpred.mpr hsem⟩, rfl⟩
  · norm_num [drop_columns_with_missing_threshold, missingPred, halfMissingCol, Val.isMissing]
  · norm_num [drop_columns_with_missing_threshold, missingPred, halfMissingCol, Val.isMissing,
      memStr]

/-- Witness for C8: the characterisation applied to the concrete boundary
column at threshold 0.49 (hypotheses discharged at a concrete input). -/
theorem missing_pruning_strict_boundary_witness :
    "h" ∈ (drop_columns_with_missing_threshold [halfMissingCol] (49 / 100)).2 := by
  have h := (missing_pruning_strict_boundary.1 [halfMissingCol] (49 / 100) halfMissingCol
    (by simp) (by simp [halfMissingCol]))
  exact h.mpr (by norm_num [halfMissingCol, Val.isMissing])

/-! ## C9: Transformer.drop_unwanted_columns during run -/

/-- C9: the per-table column-drop step of `Transformer.run` (called with no
user drops and the default keep list) removes exactly the columns whose
lowercased name starts with "final", or starts with "plausible value" without
being one of "Plausible Value 1..10 in Mathematics"; all other columns stay,
in order, and the step is applied to every frame of the run's dictionary. -/
theorem drop_unwanted_columns_auto :
    (∀ df : DF, (drop_unwanted_columns df [] defaultKeepCols).cols
        = df.cols.filter fun c => !unwantedPred defaultKeepCols c)
    ∧ (∀ (dfs : List (String × DF)) (nm : String) (df : DF), (nm, df) ∈ dfs →
        (nm, drop_unwanted_columns df [] defaultKeepCols) ∈ transformerRunStep4 dfs) := by
  constructor
  · intro df
    have hdrop : ∀ c, memStr c (df.cols.filter (unwantedPred defaultKeepCols))
        = (memStr c df.cols && unwantedPred defaultKeepCols c) := by
      intro c
      by_cases hmem : c ∈ df.cols.filter (unwantedPred defaultKeepCols)
      · have h1 := List.mem_filter.mp hmem
        rw [memStr_iff.mpr hmem, memStr_iff.mpr h1.1, h1.2]
        rfl
      · have h1 : memStr c (df.cols.filter (unwantedPred defaultKeepCols)) = false :=
          Bool.eq_false_iff.mpr fun h => hmem (memStr_iff.mp h)
        rw [h1]
        by_cases h2 : c ∈ df.cols
        · by_cases h3 : unwantedPred defaultKeepCols c
          · exact absurd (List.mem_filter.mpr ⟨h2, h3⟩) hmem
          · simp [Bool.eq_false_iff.mpr h3]
        · have : memStr c df.cols = false :=
            Bool.eq_false_iff.mpr fun h => h2 (memStr_iff.mp h)
          simp [this]
    simp only [drop_unwanted_columns, List.filter_nil, List.nil_append, selectColsByPred]
    have : ∀ i ∈ List.range df.cols.length,
        (!memStr (df.cols.getD i "") (df.cols.filter (unwantedPred defaultKeepCols)))
          = !unwantedPred defaultKeepCols (df.cols.getD i "") := by
      intro i hi
      rw [hdrop]
      have : df.cols.getD i "" ∈ df.cols := by
        have hlen := List.mem_range.mp hi
        simp only [List.getD_eq_getElem?_getD]
        rw [List.getElem?_eq_getElem hlen]
        exact List.getElem_mem hlen
      rw [memStr_iff.mpr this]
      simp
    rw [List.filter_congr this]
    exact selectIdx_filter df.cols "" fun c => !unwantedPred defaultKeepCols c
  · intro dfs nm df hmem
    exact List.mem_map_of_mem (fun p => (p.1, drop_unwanted_columns p.2 [] defaultKeepCols)) hmem

/-- Witness for C9: applied to a concrete dictionary containing a frame with
a "Final Weight" column, a non-kept "Plausible Value 11 in Mathematics", a
kept "Plausible Value 2 in Mathematics", and an untouched column. -/
theorem drop_unwanted_columns_auto_witness :
    (drop_unwanted_columns
        ⟨["Final Weight", "Plausible Value 11 in Mathematics",
          "Plausible Value 2 in Mathematics", "age"], [[.num 1, .num 2, .num 3, .num 4]]⟩
        [] defaultKeepCols).cols
      = ["Plausible Value 2 in Mathematics", "age"]
    ∧ ("f", drop_unwanted_columns ⟨["Final Weight"], [[.num 1]]⟩ [] defaultKeepCols)
        ∈ transformerRunStep4 [("f", ⟨["Final Weight"], [[.num 1]]⟩)] := by
  constructor
  · rw [drop_unwanted_columns_auto.1]
    decide
  · exact drop_unwanted_columns_auto.2 [("f", ⟨["Final Weight"], [[.num 1]]⟩)] "f"
      ⟨["Final Weight"], [[.num 1]]⟩ (by simp)

/-! ## C1: the two-pass extractor copies the whole span -/

/-- C1: on a file whose key column is (MEX, USA, MEX), pass 1 finds exactly
the matching indices 0 and 2 (K = 2), but pass 2 returns all three rows of
the min-max span — including the non-matching row 1 — instead of the K
matching rows, contradicting the claim (and the function's own docstring
"Load only the rows specified in row_indices"). -/
theorem sav_loader_copies_full_span :
    find_country_rows 100000 c1Cnt "MEX" = [0, 2]
    ∧ load_rows_from_sav 10000 c1Rows [0, 2] = ["row0", "row1", "row2"]
    ∧ (load_rows_from_sav 10000 c1Rows [0, 2]).length = 3 := by
  refine ⟨by decide, by decide, by decide⟩

/-! ## C2: the target-directed correlation drop never fires -/

/-- C2: on the frame (t, x, y) with x a copy of t, |corr(x,y)| > 0.99 and
target column "t", the source drops x — the pair member *more* correlated
with the target — because the target was already excluded from
`numeric_dataframe`, so `target_column in numeric_dataframe.columns` is false
and the default branch drops the pair's second component.  The second
conjunct certifies that y (the pair's first component, `col_a`) is the member
with strictly lower absolute correlation to the target, so the claim (and
the docstring) require y, not x, to be dropped. -/
theorem corr_drop_ignores_target :
    (drop_correlated_columns c2df (99 / 100) (some "t")).2 = ["x"]
    ∧ corrAbsLt colY.vals colX.vals colT.vals = true := by
  constructor
  · have h1 : encode_nominal_features c2df = c2df := by
      simp [encode_nominal_features, encodeCol, c2df, colT, colX, colY]
    have h2 : select_numeric_features c2df (some "t") = [colX, colY] := by
      simp [select_numeric_features, targetIn, memStr, DType.isNumeric, c2df, colT, colX, colY]
    have h3 : corrAbsGt colY.vals colX.vals (99 / 100) = true := by
      norm_num [corrAbsGt, completePairs, covn, varn, colX, colY]
    have h4 : find_highly_correlated_pairs (99 / 100) [colX, colY] = [(colY, colX)] := by
      simp [find_highly_correlated_pairs, h3]
    have h5 : targetIn (some "t") [colX, colY] = false := by
      simp [targetIn, memStr, colX, colY]
    have h6 : dfEmptyB [colX, colY] = false := by simp [dfEmptyB, colX]
    have h7 : corrChooseDrop [colX, colY] (some "t") (colY, colX) = "x" := by
      simp only [corrChooseDrop, h5]
      simp [colX]
    simp [drop_correlated_columns, h1, h2, h6, h4, h7, insertName, memStr]
  · norm_num [corrAbsLt, completePairs, covn, varn, colX, colY, colT]

/-! ## C3: thresholds at 1.0 (Cauchy-Schwarz for the correlation stage) -/

theorem list_sum_getD (l : List ℚ) : l.sum = ∑ i ∈ Finset.range l.length, l.getD i 0 := by
  induction l with
  | nil => simp
  | cons a tl ih =>
      rw [List.sum_cons, List.length_cons, Finset.sum_range_succ', ih]
      simp [add_comm]

theorem getD_map' {α β : Type} (f : α → β) (l : List α) (d : α) (i : ℕ) :
    (l.map f).getD i (f d) = f (l.getD i d) := by
  induction l generalizing i with
  | nil => simp
  | cons a tl ih => cases i <;> simp [ih]

theorem mem_of_mem_distinctVals {v : Val} {l : List Val} (h : v ∈ distinctVals l) : v ∈ l := by
  induction l with
  | nil => simp [distinctVals] at h
  | cons a rest ih =>
      rw [distinctVals] at h
      by_cases ha : (distinctVals rest).any (valEqB a)
      · rw [if_pos ha] at h
        exact List.mem_cons_of_mem _ (ih h)
      · rw [if_neg ha] at h
        rcases List.mem_cons.mp h with h | h
        · exact h ▸ List.mem_cons_self _ _
        · exact List.mem_cons_of_mem _ (ih h)

theorem foldr_max_le {l : List Nat} {B : Nat} (h : ∀ x ∈ l, x ≤ B) : l.foldr max 0 ≤ B := by
  induction l with
  | nil => simp
  | cons a rest ih =>
      simp only [List.foldr_cons, max_le_iff]
      exact ⟨h a (by simp), ih fun x hx => h x (List.mem_cons_of_mem _ hx)⟩

theorem topFreq_le_validCount (c : Col) : topFreq c ≤ validCount c := by
  apply foldr_max_le
  intro x hx
  simp only [List.mem_map] at hx
  obtain ⟨v, hv, rfl⟩ := hx
  have hvm : v ∈ c.vals.filter fun w => !w.isMissing := mem_of_mem_distinctVals hv
  have hvnm : (!v.isMissing) = true := (List.mem_filter.mp hvm).2
  have hmono : ∀ a ∈ c.vals, valEqB v a = true → (!a.isMissing) = true := by
    intro a _ hva
    have hva2 : v = a := valEqB_iff.mp hva
    exact hva2 ▸ hvnm
  have := List.countP_mono_left hmono
  simpa only [validCount, List.countP_eq_length_filter] using this

theorem covn_sq_le (p : List (ℚ × ℚ)) :
    covn p ^ 2 ≤ varn (p.map Prod.fst) * varn (p.map Prod.snd) := by
  by_cases hp : p = []
  · subst hp; simp [covn, varn]
  · have hn0 : 0 < p.length := List.length_pos.mpr hp
    have hn : (0 : ℚ) < (p.length : ℚ) := by exact_mod_cast hn0
    have hX : ∀ i : ℕ, (p.map Prod.fst).getD i 0 = (p.getD i (0, 0)).1 := fun i =>
      getD_map' Prod.fst p (0, 0) i
    have hY : ∀ i : ℕ, (p.map Prod.snd).getD i 0 = (p.getD i (0, 0)).2 := fun i =>
      getD_map' Prod.snd p (0, 0) i
    have hXY : ∀ i : ℕ, (p.map fun u => u.1 * u.2).getD i 0
        = (p.getD i (0, 0)).1 * (p.getD i (0, 0)).2 := fun i => by
      simpa using getD_map' (fun u => u.1 * u.2) p (0, 0) i
    have hXX : ∀ i : ℕ, (p.map fun u => u.1 * u.1).getD i 0
        = (p.getD i (0, 0)).1 * (p.getD i (0, 0)).1 := fun i => by
      simpa using getD_map' (fun u => u.1 * u.1) p (0, 0) i
    have hYY : ∀ i : ℕ, (p.map fun u => u.2 * u.2).getD i 0
        = (p.getD i (0, 0)).2 * (p.getD i (0, 0)).2 := fun i => by
      simpa using getD_map' (fun u => u.2 * u.2) p (0, 0) i
    have main : ∀ (X Y : ℕ → ℚ),
        X = (fun i => (p.getD i (0,0)).1) → Y = (fun i => (p.getD i (0,0)).2) →
        covn p ^ 2 ≤ varn (p.map Prod.fst) * varn (p.map Prod.snd) := by
      intro X Y hXdef hYdef
      have exys : (p.map fun u => u.1 * u.2).sum = ∑ i ∈ Finset.range p.length, X i * Y i := by
        rw [list_sum_getD, List.length_map]
        exact Finset.sum_congr rfl fun i _ => by rw [hXY i, hXdef, hYdef]
      have exs : (p.map Prod.fst).sum = ∑ i ∈ Finset.range p.length, X i := by
        rw [list_sum_getD, List.length_map]
        exact Finset.sum_congr rfl fun i _ => by rw [hX i, hXdef]
      have eys : (p.map Prod.snd).sum = ∑ i ∈ Finset.range p.length, Y i := by
        rw [list_sum_getD, List.length_map]
        exact Finset.sum_congr rfl fun i _ => by rw [hY i, hYdef]
      have exxs : (p.map fun u => u.1 * u.1).sum = ∑ i ∈ Finset.range p.length, X i * X i := by
        rw [list_sum_getD, List.length_map]
        exact Finset.sum_congr rfl fun i _ => by rw [hXX i, hXdef]
      have eyys : (p.map fun u => u.2 * u.2).sum = ∑ i ∈ Finset.range p.length, Y i * Y i := by
        rw [list_sum_getD, List.length_map]
        exact Finset.sum_congr rfl fun i _ => by rw [hYY i, hYdef]
      set m : ℚ := (p.length : ℚ) with hm
      set SX := ∑ i ∈ Finset.range p.length, X i with hSX
      set SY := ∑ i ∈ Finset.range p.length, Y i with hSY
      set SXY := ∑ i ∈ Finset.range p.length, X i * Y i with hSXY
      set SXX := ∑ i ∈ Finset.range p.length, X i * X i with hSXX
      set SYY := ∑ i ∈ Finset.range p.length, Y i * Y i with hSYY
      have cs := Finset.sum_mul_sq_le_sq_mul_sq (Finset.range p.length)
        (fun i => m * X i - SX) (fun i => m * Y i - SY)
      have e1 : (∑ i ∈ Finset.range p.length, (m * X i - SX) * (m * Y i - SY))
          = m * (m * SXY - SX * SY) := by
        have hterm : ∀ i ∈ Finset.range p.length,
            (m * X i - SX) * (m * Y i - SY)
              = m * m * (X i * Y i) - (m * SY) * X i - (m * SX) * Y i + SX * SY := by
          intro i _; ring
        rw [Finset.sum_congr rfl hterm]
        simp only [Finset.sum_add_distrib, Finset.sum_sub_distrib, ← Finset.mul_sum,
          Finset.sum_const, Finset.card_range, nsmul_eq_mul]
        rw [← hSXY, ← hSX, ← hSY, ← hm]
        ring
      have e2 : (∑ i ∈ Finset.range p.length, (m * X i - SX) ^ 2)
          = m * (m * SXX - SX * SX) := by
        have hterm : ∀ i ∈ Finset.range p.length,
            (m * X i - SX) ^ 2 = m * m * (X i * X i) - (2 * m * SX) * X i + SX * SX := by
          intro i _; ring
        rw [Finset.sum_congr rfl hterm]
        simp only [Finset.sum_add_distrib, Finset.sum_sub_distrib, ← Finset.mul_sum,
          Finset.sum_const, Finset.card_range, nsmul_eq_mul]
        rw [← hSXX, ← hSX, ← hm]
        ring
      have e3 : (∑ i ∈ Finset.range p.length, (m * Y i - SY) ^ 2)
          = m * (m * SYY - SY * SY) := by
        have hterm : ∀ i ∈ Finset.range p.length,
            (m * Y i - SY) ^ 2 = m * m * (Y i * Y i) - (2 * m * SY) * Y i + SY * SY := by
          intro i _; ring
        rw [Finset.sum_congr rfl hterm]
        simp only [Finset.sum_add_distrib, Finset.sum_sub_distrib, ← Finset.mul_sum,
          Finset.sum_const, Finset.card_range, nsmul_eq_mul]
        rw [← hSYY, ← hSY, ← hm]
        ring
      rw [e1, e2, e3] at cs
      have hcov : covn p = m * SXY - SX * SY := by
        simp only [covn]
        rw [exys, exs, eys, ← hm]
      have hvx : varn (p.map Prod.fst) = m * SXX - SX * SX := by
        simp only [varn, List.map_map, Function.comp_def, List.length_map]
        rw [exxs, exs, ← hm]
      have hvy : varn (p.map Prod.snd) = m * SYY - SY * SY := by
        simp only [varn, List.map_map, Function.comp_def, List.length_map]
        rw [eyys, eys, ← hm]
      rw [hcov, hvx, hvy]
      nlinarith [cs, hn, mul_pos hn hn]
    exact main _ _ rfl rfl

theorem corrAbsGt_one_false (xs ys : List Val) : corrAbsGt xs ys 1 = false := by
  simp only [corrAbsGt, Bool.and_eq_false_iff]
  by_cases hx : varn ((completePairs xs ys).map Prod.fst) > 0
  · by_cases hy : varn ((completePairs xs ys).map Prod.snd) > 0
    · right
      simp only [decide_eq_false_iff_not, not_lt]
      calc covn (completePairs xs ys) ^ 2
          ≤ varn ((completePairs xs ys).map Prod.fst)
            * varn ((completePairs xs ys).map Prod.snd) := covn_sq_le _
        _ = 1 ^ 2 * varn ((completePairs xs ys).map Prod.fst)
            * varn ((completePairs xs ys).map Prod.snd) := by ring
    · left; right; simpa using hy
  · left; left; simpa using hx

theorem pairs_at_one_nil (l : List Col) : find_highly_correlated_pairs 1 l = [] := by
  induction l with
  | nil => rfl
  | cons c rest ih =>
      simp [find_highly_correlated_pairs, ih, corrAbsGt_one_false]

theorem missingPred_one_false (c : Col) : missingPred 1 c = false := by
  simp only [missingPred, Bool.and_eq_false_iff]
  by_cases hl : c.vals.length = 0
  · left; simp [hl]
  · right
    simp only [decide_eq_false_iff_not, not_lt]
    have hle : (c.vals.filter Val.isMissing).length ≤ c.vals.length :=
      List.length_filter_le _ _
    have hpos : (0:ℚ) < (c.vals.length : ℚ) := by
      exact_mod_cast Nat.pos_of_ne_zero hl
    rw [div_le_one hpos]
    exact_mod_cast hle

theorem uniformPred_one (c : Col) :
    uniformPred 1 c = (validCount c ≠ 0 && topFreq c = validCount c) := by
  by_cases hv : validCount c = 0
  · simp [uniformPred, hv]
  · have hpos : (0:ℚ) < (validCount c : ℚ) := by
      exact_mod_cast Nat.pos_of_ne_zero hv
    have hiff : ((topFreq c : ℚ) / (validCount c : ℚ) ≥ 1) ↔ topFreq c = validCount c := by
      rw [ge_iff_le, one_le_div hpos]
      constructor
      · intro hle
        exact le_antisymm (topFreq_le_validCount c) (by exact_mod_cast hle)
      · intro he
        rw [he]
    simp only [uniformPred, hv, decide_eq_true_eq]
    simp [hiff, decide_eq_decide]

theorem drop_corr_at_one (df : List Col) (tgt : Option String) :
    drop_correlated_columns df 1 tgt = (df, []) := by
  simp only [drop_correlated_columns]
  by_cases h : dfEmptyB (select_numeric_features (encode_nominal_features df) tgt)
  · simp [h]
  · simp [h, pairs_at_one_nil, memStr, List.filter_true]

/-- C3 amended: at thresholds 1.0 the missingness and correlation stages
drop no column (strict-greater comparisons, and a Pearson correlation never
exceeds 1 in absolute value, by Cauchy-Schwarz), but the uniformity stage
uses greater-or-equal, so at threshold 1.0 it drops exactly the columns whose
most frequent non-missing value accounts for all non-missing values. -/
theorem thresholds_one_only_uniform_drops :
    ∀ (df : List Col) (tgt : Option String),
      (drop_columns_with_missing_threshold df 1).2 = []
      ∧ (drop_correlated_columns df 1 tgt).2 = []
      ∧ (drop_highly_uniform_columns df 1).2
          = (df.filter fun c => validCount c ≠ 0 && topFreq c = validCount c).map Col.name := by
  intro df tgt
  refine ⟨?_, ?_, ?_⟩
  · simp [drop_columns_with_missing_threshold, missingPred_one_false]
  · rw [drop_corr_at_one]
  · simp only [drop_highly_uniform_columns]
    rw [List.filter_congr fun c _ => uniformPred_one c]

/-- C3 counterexample: with all three thresholds equal to 1.0, a run on a
frame with one fully uniform column still drops that column (reported by the
uniformity stage), refuting the claim that thresholds of 1.0 never drop a
uniform, missing, or correlated column. -/
theorem thresholds_one_still_drops :
    (csvCleanerRun c3df [] 1 1 1 none).droppedUniform = ["a"] := by
  have hpre : preprocessAll [] c3df = c3df := by
    norm_num [preprocessAll, clean_all_names_and_values, cleanAllNamesCol, cleanNameStr,
      pyReplace, replAux, prefB, pyStrip, isPySpace, replace_missing_invalid,
      replaceMissingInvalidCol, clean_large_values, cleanLargeValuesCol, sanitize_newlines,
      sanitizeNewlinesCol, enforce_numeric_or_category, enforceNumericCol, parseVal,
      c3df, Val.isMissing, memStr, DType.isNumeric]
    simp [isPySpace]
  have huni : drop_highly_uniform_columns c3df 1 = ([], ["a"]) := by
    norm_num [drop_highly_uniform_columns, uniformPred, validCount, topFreq, distinctVals,
      valEqB, Val.isMissing, memStr, c3df]
  simp [csvCleanerRun, hpre, drop_corr_at_one, huni]

/-! ## C4: the duplicate-safe left join -/

theorem flatMap_singleton_eq_map {α β : Type} {f : α → List β} {g : α → β} {l : List α}
    (h : ∀ a ∈ l, f a = [g a]) : l.flatMap f = l.map g := by
  induction l with
  | nil => rfl
  | cons a tl ih =>
      rw [List.flatMap_cons, h a (by simp), List.map_cons,
        ih fun x hx => h x (List.mem_cons_of_mem _ hx)]
      rfl

theorem filter_eq_find_of_nodup {key : List Val → Val} {l : List (List Val)}
    (hnd : (l.map key).Nodup) (kv : Val) :
    l.filter (fun r => valEqB (key r) kv)
      = (match l.find? (fun r => valEqB (key r) kv) with
         | some r => [r]
         | none => []) := by
  induction l with
  | nil => rfl
  | cons a tl ih =>
      simp only [List.map_cons, List.nodup_cons] at hnd
      by_cases ha : valEqB (key a) kv = true
      · have hkv : key a = kv := valEqB_iff.mp ha
        have hnil : tl.filter (fun r => valEqB (key r) kv) = [] := by
          apply List.filter_eq_nil_iff.mpr
          intro r hr hvr
          apply hnd.1
          have hreq : key a = key r := hkv.trans (valEqB_iff.mp hvr).symm
          rw [hreq]
          exact List.mem_map_of_mem key hr
        simp [List.filter_cons, List.find?_cons, ha, hnil]
      · simp [List.filter_cons, List.find?_cons, ha, ih hnd.2]

theorem selectColsByPred_all {df : DF} {p : String → Bool}
    (hp : ∀ c ∈ df.cols, p c = true)
    (hr : ∀ r ∈ df.rows, r.length = df.cols.length) :
    selectColsByPred df p = df := by
  obtain ⟨cols, rows⟩ := df
  simp only [selectColsByPred]
  have hkeep : (List.range cols.length).filter (fun i => p (cols.getD i "")) 
      = List.range cols.length := by
    apply List.filter_eq_self.mpr
    intro i hi
    apply hp
    have hlen := List.mem_range.mp hi
    simp only [List.getD_eq_getElem?_getD]
    rw [List.getElem?_eq_getElem hlen]
    exact List.getElem_mem hlen
  rw [hkeep]
  congr 1
  · exact map_getD_range cols ""
  · apply map_eq_self_of_mem
    intro r hrr
    have hlen := hr r hrr
    simp only at hlen
    rw [← hlen]
    exact map_getD_range r .missing

/-- C4 amended: merging base {id, score} with satellite {id, extra} on "id"
gives exactly the columns {id, score, extra}, and — provided each satellite
key value occurs at most once — the same row count as the base, with `extra`
missing for every base id absent from the satellite (without that proviso a
left join replicates base rows, see the counterexample). -/
theorem merge_left_join_unique_satellite
    (b s : DF) (hb : b.cols = ["id", "score"]) (hs : s.cols = ["id", "extra"])
    (hbr : ∀ r ∈ b.rows, r.length = 2)
    (hnd : (s.rows.map fun r => r.getD 0 .missing).Nodup) :
    ∃ m, merge_with_base "base" [("base", b), ("sat", s)] ["id"] = some m
      ∧ m.cols = ["id", "score", "extra"]
      ∧ m.rows.length = b.rows.length
      ∧ m.rows = b.rows.map (fun r =>
          match s.rows.find? (fun srow => valEqB (srow.getD 0 .missing) (r.getD 0 .missing)) with
          | some srow => r ++ [srow.getD 1 .missing]
          | none => r ++ [Val.missing])
      ∧ ∀ r ∈ b.rows,
          (∀ srow ∈ s.rows, valEqB (srow.getD 0 .missing) (r.getD 0 .missing) = false) →
          r ++ [Val.missing] ∈ m.rows := by
  obtain ⟨bc, br⟩ := b
  obtain ⟨sc, srws⟩ := s
  simp only at hb hs hbr hnd
  subst hb hs
  have hrows0 : (pdMergeLeft ⟨["id","score"], br⟩ ⟨["id","extra"], srws⟩ "id").rows
      = br.flatMap (fun r =>
          if (srws.filter fun srow =>
              valEqB (srow.getD 0 .missing) (r.getD 0 .missing)).isEmpty then
            [r ++ [Val.missing]]
          else (srws.filter fun srow =>
              valEqB (srow.getD 0 .missing) (r.getD 0 .missing)).map
            fun srow => r ++ [srow.getD 1 .missing]) := rfl
  have hcols0 : (pdMergeLeft ⟨["id","score"], br⟩ ⟨["id","extra"], srws⟩ "id").cols
      = ["id", "score", "extra"] := rfl
  have hrows1 : (pdMergeLeft ⟨["id","score"], br⟩ ⟨["id","extra"], srws⟩ "id").rows
      = br.map fun r =>
          match srws.find? (fun srow => valEqB (srow.getD 0 .missing) (r.getD 0 .missing)) with
          | some srow => r ++ [srow.getD 1 .missing]
          | none => r ++ [Val.missing] := by
    rw [hrows0]
    apply flatMap_singleton_eq_map
    intro r hr
    rw [filter_eq_find_of_nodup hnd (r.getD 0 .missing)]
    cases hfind : srws.find? fun srow => valEqB (srow.getD 0 .missing) (r.getD 0 .missing) with
    | some srow => simp
    | none => simp
  have hglen : ∀ r0 ∈ (pdMergeLeft ⟨["id","score"], br⟩ ⟨["id","extra"], srws⟩ "id").rows,
      r0.length = 3 := by
    rw [hrows1]
    intro r0 hr0
    obtain ⟨r, hr, rfl⟩ := List.mem_map.mp hr0
    have h2 := hbr r hr
    cases hfind : srws.find? fun srow => valEqB (srow.getD 0 .missing) (r.getD 0 .missing) with
    | some srow => simp [hfind, h2]
    | none => simp [hfind, h2]
  have hdrop : dropDupCols (pdMergeLeft ⟨["id","score"], br⟩ ⟨["id","extra"], srws⟩ "id")
      = pdMergeLeft ⟨["id","score"], br⟩ ⟨["id","extra"], srws⟩ "id" := by
    apply selectColsByPred_all
    · rw [hcols0]
      decide
    · intro r hr
      rw [hcols0]
      exact hglen r hr
  have hmove : movePV1 (pdMergeLeft ⟨["id","score"], br⟩ ⟨["id","extra"], srws⟩ "id")
      = pdMergeLeft ⟨["id","score"], br⟩ ⟨["id","extra"], srws⟩ "id" := by
    have hmem : memStr "Plausible Value 1 in Mathematics" ["id", "score", "extra"] = false := by
      decide
    rw [movePV1, hcols0, hmem]
    simp
  refine ⟨pdMergeLeft ⟨["id","score"], br⟩ ⟨["id","extra"], srws⟩ "id", ?_, hcols0, ?_, ?_, ?_⟩
  · have hmw : merge_with_base "base"
        [("base", (⟨["id","score"], br⟩ : DF)), ("sat", (⟨["id","extra"], srws⟩ : DF))] ["id"]
        = some (mergeStep ⟨["id","score"], br⟩ ⟨["id","extra"], srws⟩ "id") := by
      simp [merge_with_base, mergeStep]
    rw [hmw, mergeStep, hdrop, hmove]
  · rw [hrows1, List.length_map]
  · exact hrows1
  · intro r hr habs
    rw [hrows1]
    have hnone : srws.find? (fun srow => valEqB (srow.getD 0 .missing) (r.getD 0 .missing))
        = none := by
      apply List.find?_eq_none.mpr
      intro srow hsrow
      have := habs srow hsrow
      simpa [List.getD] using this
    have : (fun r =>
        match srws.find? (fun srow => valEqB (srow.getD 0 .missing) (r.getD 0 .missing)) with
        | some srow => r ++ [srow.getD 1 .missing]
        | none => r ++ [Val.missing]) r = r ++ [Val.missing] := by
      simp only [hnone]
    rw [← this]
    exact List.mem_map_of_mem _ hr

/-- C4 counterexample: with a satellite containing the key value 1 twice,
the left join of a one-row base produces two rows, so the claimed "same row
count as the base" fails as stated. -/
theorem merge_left_multiplies_rows :
    (merge_with_base "base" [("base", c4base), ("sat", c4satDup)] ["id"]).map
      (fun m => m.rows.length) = some 2
    ∧ c4base.rows.length = 1 := by decide

/-- Witness for C4: the amended theorem applied to a concrete base with two
rows and a one-row satellite; base id 2 is absent from the satellite and gets
a missing `extra`. -/
theorem merge_left_join_unique_satellite_witness :
    ∃ m, merge_with_base "base" [("base", c4base2), ("sat", c4sat)] ["id"] = some m
      ∧ m.cols = ["id", "score", "extra"]
      ∧ m.rows.length = c4base2.rows.length
      ∧ [Val.num 2, Val.num 20, Val.missing] ∈ m.rows := by
  obtain ⟨m, h1, h2, h3, h4, h5⟩ := merge_left_join_unique_satellite c4base2 c4sat rfl rfl
    (by decide) (by decide)
  refine ⟨m, h1, h2, h3, ?_⟩
  have := h5 [Val.num 2, Val.num 20] (by decide) (by decide)
  simpa using this

/-! ## C7: the role-detection tie-break -/

theorem fbLoop_spec (kws : List String) (cols : List Col) :
    ∀ (m : Nat) (best : List String),
      (fbLoop kws cols m best).1 = max m (maxKeywordScore cols kws)
      ∧ (fbLoop kws cols m best).2 =
          (if maxKeywordScore cols kws ≤ m then
            best ++ (if 0 < m then
              (cols.filter fun c => score_column c.name kws = m).map Col.name else [])
          else
            (cols.filter fun c =>
              score_column c.name kws = max m (maxKeywordScore cols kws)).map Col.name) := by
  induction cols with
  | nil =>
      intro m best
      simp [fbLoop, maxKeywordScore]
  | cons c rest ih =>
      intro m best
      have hms : maxKeywordScore (c :: rest) kws
          = max (score_column c.name kws) (maxKeywordScore rest kws) := by
        simp [maxKeywordScore]
      by_cases h1 : score_column c.name kws > m
      · have hloop : fbLoop kws (c :: rest) m best
            = fbLoop kws rest (score_column c.name kws) [c.name] := by
          simp [fbLoop, h1]
        obtain ⟨ihf, ihs⟩ := ih (score_column c.name kws) [c.name]
        refine ⟨by rw [hloop, ihf, hms]; omega, ?_⟩
        rw [hloop, ihs, hms]
        by_cases h2 : maxKeywordScore rest kws ≤ score_column c.name kws
        · rw [if_pos h2,
            if_pos (show 0 < score_column c.name kws by omega),
            if_neg (show ¬(max (score_column c.name kws) (maxKeywordScore rest kws) ≤ m) by omega),
            show max m (max (score_column c.name kws) (maxKeywordScore rest kws))
              = score_column c.name kws by omega,
            List.filter_cons]
          simp
        · rw [if_neg h2,
            if_neg (show ¬(max (score_column c.name kws) (maxKeywordScore rest kws) ≤ m) by omega),
            show max m (max (score_column c.name kws) (maxKeywordScore rest kws))
              = maxKeywordScore rest kws by omega,
            show max (score_column c.name kws) (maxKeywordScore rest kws)
              = maxKeywordScore rest kws by omega,
            List.filter_cons]
          have hne : ¬(score_column c.name kws = maxKeywordScore rest kws) := by omega
          simp [hne]
      · by_cases h2 : score_column c.name kws = m ∧ score_column c.name kws > 0
        · have hloop : fbLoop kws (c :: rest) m best
              = fbLoop kws rest m (best ++ [c.name]) := by
            simp only [fbLoop]
            rw [if_neg h1, if_pos h2]
          obtain ⟨ihf, ihs⟩ := ih m (best ++ [c.name])
          refine ⟨by rw [hloop, ihf, hms]; omega, ?_⟩
          rw [hloop, ihs, hms]
          by_cases h3 : maxKeywordScore rest kws ≤ m
          · rw [if_pos h3,
              if_pos (show max (score_column c.name kws) (maxKeywordScore rest kws) ≤ m by omega),
              if_pos (show 0 < m by omega),
              if_pos (show 0 < m by omega),
              List.filter_cons]
            have he : score_column c.name kws = m := h2.1
            simp [he]
          · rw [if_neg h3,
              if_neg (show ¬(max (score_column c.name kws) (maxKeywordScore rest kws) ≤ m) by omega),
              show max m (max (score_column c.name kws) (maxKeywordScore rest kws))
                = maxKeywordScore rest kws by omega,
              show max m (maxKeywordScore rest kws) = maxKeywordScore rest kws by omega,
              List.filter_cons]
            have hne : ¬(score_column c.name kws = maxKeywordScore rest kws) := by omega
            simp [hne]
        · have hloop : fbLoop kws (c :: rest) m best
              = fbLoop kws rest m best := by
            simp only [fbLoop]
            rw [if_neg h1, if_neg h2]
          obtain ⟨ihf, ihs⟩ := ih m best
          have hsm : score_column c.name kws ≤ m := by omega
          refine ⟨by rw [hloop, ihf, hms]; omega, ?_⟩
          rw [hloop, ihs, hms]
          by_cases h3 : maxKeywordScore rest kws ≤ m
          · rw [if_pos h3,
              if_pos (show max (score_column c.name kws) (maxKeywordScore rest kws) ≤ m by omega)]
            by_cases hm0 : 0 < m
            · rw [if_pos hm0, if_pos hm0, List.filter_cons]
              have hne : ¬(score_column c.name kws = m) := by
                intro he
                exact h2 ⟨he, by omega⟩
              simp [hne]
            · rw [if_neg hm0, if_neg hm0]
          · rw [if_neg h3,
              if_neg (show ¬(max (score_column c.name kws) (maxKeywordScore rest kws) ≤ m) by omega),
              show max m (max (score_column c.name kws) (maxKeywordScore rest kws))
                = maxKeywordScore rest kws by omega,
              show max m (maxKeywordScore rest kws) = maxKeywordScore rest kws by omega,
              List.filter_cons]
            have hne : ¬(score_column c.name kws = maxKeywordScore rest kws) := by omega
            simp [hne]

theorem pyMaxBy_spec (f : String → Nat) :
    ∀ (rest : List String) (c : String),
      pyMaxBy f c rest ∈ c :: rest
      ∧ ∀ x ∈ c :: rest, f x ≤ f (pyMaxBy f c rest) := by
  intro rest
  induction rest with
  | nil =>
      intro c
      constructor
      · simp [pyMaxBy]
      · intro x hx
        simp only [List.mem_singleton] at hx
        simp [hx, pyMaxBy]
  | cons a tl ih =>
      intro c
      by_cases hac : f a > f c
      · have hstep : pyMaxBy f c (a :: tl) = pyMaxBy f a tl := by
          simp [pyMaxBy, hac]
        obtain ⟨ihmem, ihle⟩ := ih a
        constructor
        · rw [hstep]
          rcases List.mem_cons.mp ihmem with h | h
          · rw [h]
            exact List.mem_cons_of_mem _ (List.mem_cons_self _ _)
          · exact List.mem_cons_of_mem _ (List.mem_cons_of_mem _ h)
        · intro x hx
          rw [hstep]
          rcases List.mem_cons.mp hx with hx | hx
          · subst hx
            have h1 := ihle a (List.mem_cons_self _ _)
            omega
          · exact ihle x hx
      · have hstep : pyMaxBy f c (a :: tl) = pyMaxBy f c tl := by
          simp [pyMaxBy, hac]
        obtain ⟨ihmem, ihle⟩ := ih c
        constructor
        · rw [hstep]
          rcases List.mem_cons.mp ihmem with h | h
          · rw [h]
            exact List.mem_cons_self _ _
          · exact List.mem_cons_of_mem _ (List.mem_cons_of_mem _ h)
        · intro x hx
          rw [hstep]
          rcases List.mem_cons.mp hx with hx | hx
          · subst hx
            exact ihle x (List.mem_cons_self _ _)
          · rcases List.mem_cons.mp hx with hx | hx
            · subst hx
              have h1 := ihle c (List.mem_cons_self _ _)
              omega
            · exact ihle x (List.mem_cons_of_mem _ hx)

/-- C7: whenever at least two columns tie at the maximum positive keyword
score for a role, `find_best_column` returns one of the tied columns, and its
distinct-value count (`nunique`, looked up by label as the source does) is
maximal among the tied columns. -/
theorem role_detection_tie_break (df : List Col) (kws : List String)
    (hM : 0 < maxKeywordScore df kws)
    (htie : 2 ≤ (df.filter fun c =>
      score_column c.name kws = maxKeywordScore df kws).length) :
    ∃ nm, find_best_column df kws = some nm
      ∧ nm ∈ (df.filter fun c =>
          score_column c.name kws = maxKeywordScore df kws).map Col.name
      ∧ ∀ nm2 ∈ (df.filter fun c =>
          score_column c.name kws = maxKeywordScore df kws).map Col.name,
        nuniqueByName df nm2 ≤ nuniqueByName df nm := by
  obtain ⟨hf, hs⟩ := fbLoop_spec kws df 0 []
  have hf2 : (fbLoop kws df 0 []).1 = maxKeywordScore df kws := by
    rw [hf]; omega
  have hs2 : (fbLoop kws df 0 []).2
      = (df.filter fun c => score_column c.name kws = maxKeywordScore df kws).map Col.name := by
    rw [hs, if_neg (by omega), show max 0 (maxKeywordScore df kws) = maxKeywordScore df kws by omega]
  set tied := (df.filter fun c =>
      score_column c.name kws = maxKeywordScore df kws).map Col.name with htied
  have hlen : 2 ≤ tied.length := by
    rw [htied, List.length_map]
    exact htie
  obtain ⟨c0, rest0, hcr⟩ : ∃ c0 rest0, tied = c0 :: rest0 := by
    cases h : tied with
    | nil => rw [h] at hlen; simp at hlen
    | cons x xs => exact ⟨x, xs, rfl⟩
  obtain ⟨c1, rest1, hcr1⟩ : ∃ c1 rest1, rest0 = c1 :: rest1 := by
    cases h : rest0 with
    | nil => rw [h] at hcr; rw [hcr] at hlen; simp at hlen
    | cons x xs => exact ⟨x, xs, rfl⟩
  have hfind : find_best_column df kws = some (pyMaxBy (nuniqueByName df) c0 rest0) := by
    rw [find_best_column, hf2, hs2, hcr, hcr1]
    rw [if_neg (by omega)]
  obtain ⟨hmem, hle⟩ := pyMaxBy_spec (nuniqueByName df) rest0 c0
  refine ⟨pyMaxBy (nuniqueByName df) c0 rest0, hfind, ?_, ?_⟩
  · rw [hcr]
    exact hmem
  · intro nm2 hnm2
    apply hle
    rw [hcr] at hnm2
    exact hnm2

/-- Witness for C7: the tie-break applied to two columns both scoring 4 on
the student keywords; the returned column is tied and has maximal nunique. -/
theorem role_detection_tie_break_witness :
    ∃ nm, find_best_column tieDf studentKeywords = some nm
      ∧ nm ∈ (tieDf.filter fun c =>
          score_column c.name studentKeywords = maxKeywordScore tieDf studentKeywords).map Col.name
      ∧ ∀ nm2 ∈ (tieDf.filter fun c =>
          score_column c.name studentKeywords = maxKeywordScore tieDf studentKeywords).map Col.name,
        nuniqueByName tieDf nm2 ≤ nuniqueByName tieDf nm :=
  role_detection_tie_break tieDf studentKeywords (by decide) (by decide)

/-! ## C10: the arity of detect_columns -/

theorem find_best_column_some {df : List Col} {kws : List String} {s : String}
    (h : find_best_column df kws = some s) :
    0 < maxKeywordScore df kws ∧ score_column s kws = maxKeywordScore df kws := by
  obtain ⟨hf, hs⟩ := fbLoop_spec kws df 0 []
  have hf2 : (fbLoop kws df 0 []).1 = maxKeywordScore df kws := by
    rw [hf]; omega
  by_cases hM : maxKeywordScore df kws = 0
  · rw [find_best_column, hf2, if_pos hM] at h
    exact absurd h (by simp)
  · have hs2 : (fbLoop kws df 0 []).2
        = (df.filter fun c => score_column c.name kws = maxKeywordScore df kws).map Col.name := by
      rw [hs, if_neg (by omega),
        show max 0 (maxKeywordScore df kws) = maxKeywordScore df kws by omega]
    rw [find_best_column, hf2, if_neg hM, hs2] at h
    refine ⟨Nat.pos_of_ne_zero hM, ?_⟩
    have hmem : s ∈ (df.filter fun c =>
        score_column c.name kws = maxKeywordScore df kws).map Col.name := by
      cases htied : (df.filter fun c =>
          score_column c.name kws = maxKeywordScore df kws).map Col.name with
      | nil => rw [htied] at h; simp at h
      | cons c0 rest0 =>
          rw [htied] at h
          cases rest0 with
          | nil =>
              simp only [Option.some.injEq] at h
              rw [← h]
              exact List.mem_cons_self _ _
          | cons c1 r1 =>
              simp only [Option.some.injEq] at h
              rw [← h]
              exact (pyMaxBy_spec (nuniqueByName df) (c1 :: r1) c0).1
    obtain ⟨col, hcol, hname⟩ := List.mem_map.mp hmem
    have hsc := (List.mem_filter.mp hcol).2
    simp only [decide_eq_true_eq] at hsc
    rw [← hname]
    exact hsc

theorem score_column_eq_zero {s : String} {kws : List String}
    (h : ∀ kw ∈ kws, ¬((keepWordsStr kw).toList ∈ splitSp (keepWordsStr s).toList)
      ∧ infB (normalizeStr kw).toList (normalizeStr s).toList = false) :
    score_column s kws = 0 := by
  have gen : ∀ (ks : List String) (acc : Nat), (∀ kw ∈ ks,
      ¬((keepWordsStr kw).toList ∈ splitSp (keepWordsStr s).toList)
        ∧ infB (normalizeStr kw).toList (normalizeStr s).toList = false) →
      List.foldl (fun acc kw =>
        if (keepWordsStr kw).toList ∈ splitSp (keepWordsStr s).toList then acc + 2
        else if infB (normalizeStr kw).toList (normalizeStr s).toList then acc + 1
        else acc) acc ks = acc := by
    intro ks
    induction ks with
    | nil => intro acc _; rfl
    | cons kw rest ih =>
        intro acc hk
        have h1 := hk kw (by simp)
        rw [List.foldl_cons, if_neg h1.1, if_neg (by simpa using h1.2)]
        exact ih acc fun k hkm => hk k (List.mem_cons_of_mem _ hkm)
  exact gen kws 0 h

theorem pyStrip_empty_all_space {s : String} (h : pyStrip s = "") :
    ∀ c ∈ s.toList, isPySpace c = true := by
  have h2 : ((s.toList.dropWhile isPySpace).reverse.dropWhile isPySpace).reverse = [] :=
    congrArg String.data h
  rw [List.reverse_eq_nil_iff] at h2
  have h3 : ∀ c ∈ (s.toList.dropWhile isPySpace).reverse, isPySpace c = true :=
    List.dropWhile_eq_nil_iff.mp h2
  have h4 : ∀ c ∈ s.toList.dropWhile isPySpace, isPySpace c = true := by
    intro c hc
    exact h3 c (List.mem_reverse.mpr hc)
  intro c hc
  rw [← List.takeWhile_append_dropWhile (p := isPySpace) (l := s.toList)] at hc
  rcases List.mem_append.mp hc with hc | hc
  · exact List.mem_takeWhile_imp hc
  · exact h4 c hc

theorem isPySpace_not_alnum {c : Char} (h : isPySpace c = true) :
    ((chToLower c).isAlpha || (chToLower c).isDigit) = false := by
  simp only [isPySpace, Bool.or_eq_true, decide_eq_true_eq] at h
  rcases h with ((h | h) | h) | h <;> subst h <;> decide

theorem keepWords_all_space {s : String} (h : ∀ c ∈ s.toList, isPySpace c = true) :
    ∀ c ∈ (keepWordsStr s).toList, c = ' ' := by
  intro c hc
  obtain ⟨c0, hc0, rfl⟩ := List.mem_map.mp hc
  have := isPySpace_not_alnum (h c0 hc0)
  simp only [Bool.or_eq_false_iff] at this
  simp [this.1, this.2]

theorem splitSp_all_space {l : List Char} (h : ∀ c ∈ l, c = ' ') :
    ∀ t ∈ splitSp l, t = [] := by
  induction l with
  | nil =>
      intro t ht
      simp only [splitSp, List.mem_singleton] at ht
      exact ht
  | cons c rest ih =>
      intro t ht
      have hc : c = ' ' := h c (by simp)
      rw [splitSp, if_pos hc] at ht
      rcases List.mem_cons.mp ht with ht | ht
      · exact ht
      · exact ih (fun x hx => h x (List.mem_cons_of_mem _ hx)) t ht

theorem normalize_empty {s : String} (h : ∀ c ∈ s.toList, isPySpace c = true) :
    (normalizeStr s).toList = [] := by
  apply List.filter_eq_nil_iff.mpr
  intro x hx
  obtain ⟨c0, hc0, rfl⟩ := List.mem_map.mp hx
  simp [isPySpace_not_alnum (h c0 hc0)]

theorem infB_nil {a : List Char} (h : a ≠ []) : infB a [] = false := by
  cases a with
  | nil => exact absurd rfl h
  | cons x xs => rfl

theorem score_pos_strip_ne {s : String} (hpos : 0 < score_column s scoreKeywords) :
    pyStrip s ≠ "" := by
  intro hempty
  have hsp := pyStrip_empty_all_space hempty
  have hz : score_column s scoreKeywords = 0 := by
    apply score_column_eq_zero
    intro kw hkw
    have hkw3 : kw = "plausible" ∨ kw = "math" ∨ kw = "value" := by
      simpa [scoreKeywords] using hkw
    constructor
    · intro hmem
      have ht := splitSp_all_space (keepWords_all_space hsp) _ hmem
      rcases hkw3 with h | h | h <;> subst h <;> exact absurd ht (by decide)
    · rw [normalize_empty hsp]
      apply infB_nil
      rcases hkw3 with h | h | h <;> subst h <;> decide
  omega

/-- C10: with `detect_math_level=True`, `detect_columns` returns a 4-tuple
exactly when a score column was detected, and a 3-tuple when none was:
a detected score name has a positive keyword score, hence survives the
truthiness checks on the raw and stripped name. -/
theorem detect_columns_arity (df : List Col) :
    ((∃ a b c d, detect_columns df true = .four a b c d)
      ↔ (find_best_column df scoreKeywords).isSome = true)
    ∧ (find_best_column df scoreKeywords = none →
        detect_columns df true
          = .three none (stripOpt (find_best_column df schoolKeywords))
            (stripOpt (find_best_column df studentKeywords))) := by
  cases hfind : find_best_column df scoreKeywords with
  | none =>
      have hdet : detect_columns df true
          = .three none (stripOpt (find_best_column df schoolKeywords))
            (stripOpt (find_best_column df studentKeywords)) := by
        simp [detect_columns, hfind, stripOpt, truthyStr]
      refine ⟨⟨?_, ?_⟩, fun _ => hdet⟩
      · rintro ⟨a, b, c, d, h4⟩
        rw [hdet] at h4
        exact absurd h4 (by simp)
      · intro hs
        simp at hs
  | some s =>
      obtain ⟨hM, hscore⟩ := find_best_column_some hfind
      have hpos : 0 < score_column s scoreKeywords := by
        rw [hscore]; exact hM
      have hstrip : pyStrip s ≠ "" := score_pos_strip_ne hpos
      have hsne : s ≠ "" := by
        intro he
        apply hstrip
        subst he
        rfl
      have hdet : ∃ a b c d, detect_columns df true = .four a b c d := by
        refine ⟨some (pyStrip s), stripOpt (find_best_column df schoolKeywords),
          stripOpt (find_best_column df studentKeywords), ?_, ?_⟩
        · exact ((df.find? fun c =>
            infB (normalizeStr (pyStrip s)).toList (normalizeStr c.name).toList
              && infB "level".toList (normalizeStr c.name).toList).map
            fun c => pyStrip c.name)
        · simp [detect_columns, hfind, stripOpt, hsne, truthyStr, hstrip]
      exact ⟨⟨fun _ => by simp, fun _ => hdet⟩, fun hnone => absurd hnone (by simp)⟩

/-- Witness for C10: on a frame without any score-keyword match the
detector returns the 3-tuple even though `detect_math_level` is set. -/
theorem detect_columns_arity_witness :
    detect_columns tieDf true
      = .three none (stripOpt (find_best_column tieDf schoolKeywords))
        (stripOpt (find_best_column tieDf studentKeywords)) :=
  (detect_columns_arity tieDf).2 (by decide)

/-! ## C6: idempotence of `CSVCleaner.run`

The three pruning stages are idempotent (a surviving column no longer
satisfies its stage's drop condition, and a correlated pair of survivors
would contradict the first run's drop set), but the value preprocessing is
not: `clean_large_values` masks sentinels only in numeric columns, and
`enforce_numeric_or_category` turns an all-numeral object column numeric, so
a column can become numeric in run 1 and only lose its large sentinels in
run 2, changing the uniformity statistics.  The claim is therefore refuted
in general and holds under the extra hypothesis that the preprocessing fixes
the input frame. -/

/-- The five preprocessing stages compose to a per-column map. -/
theorem preprocessAll_eq_map (ids : List String) (df : List Col) :
    preprocessAll ids df = df.map (preprocessCol ids) := by
  simp only [preprocessAll, clean_all_names_and_values, replace_missing_invalid,
    clean_large_values, sanitize_newlines, enforce_numeric_or_category, List.map_map]
  rfl

/-- A preprocessing fixpoint frame is fixed column by column. -/
theorem preprocess_fix_mem {ids : List String} {df : List Col}
    (h : preprocessAll ids df = df) : ∀ c ∈ df, preprocessCol ids c = c := by
  rw [preprocessAll_eq_map] at h
  exact map_eq_self_mem h

/-- Preprocessing fixes any frame drawn from per-column-fixed columns. -/
theorem preprocess_fix_of_mem {ids : List String} {df df1 : List Col}
    (h : ∀ c ∈ df, preprocessCol ids c = c) (hsub : ∀ c ∈ df1, c ∈ df) :
    preprocessAll ids df1 = df1 := by
  rw [preprocessAll_eq_map]
  exact map_eq_self_of_mem fun c hc => h c (hsub c hc)

/-- Label encoding keeps the column name. -/
theorem encodeCol_name (c : Col) : (encodeCol c).name = c.name := by
  cases c with
  | mk nm dt vs => cases dt <;> rfl

/-- `insertName` really inserts. -/
theorem insertName_self (acc : List String) (n : String) : n ∈ insertName acc n := by
  rw [insertName]
  by_cases h : memStr n acc
  · rw [if_pos h]
    exact memStr_iff.mp h
  · rw [if_neg h]
    simp

/-- `insertName` keeps previous members. -/
theorem insertName_sub {acc : List String} {x : String} (h : x ∈ acc) (n : String) :
    x ∈ insertName acc n := by
  rw [insertName]
  by_cases hn : memStr n acc
  · rw [if_pos hn]; exact h
  · rw [if_neg hn]; exact List.mem_append_left _ h

/-- The drop-set fold keeps what the accumulator already holds. -/
theorem fold_insert_preserves {α : Type} (f : α → String) :
    ∀ (ps : List α) (acc : List String) (x : String), x ∈ acc →
      x ∈ ps.foldl (fun a p => insertName a (f p)) acc := by
  intro ps
  induction ps with
  | nil => intro acc x hx; exact hx
  | cons p rest ih =>
      intro acc x hx
      exact ih (insertName acc (f p)) x (insertName_sub hx (f p))

/-- The drop-set fold contains the chosen name of every processed pair. -/
theorem fold_insert_adds {α : Type} (f : α → String) :
    ∀ (ps : List α) (acc : List String) (p : α), p ∈ ps →
      f p ∈ ps.foldl (fun a q => insertName a (f q)) acc := by
  intro ps
  induction ps with
  | nil => intro acc p hp; simp at hp
  | cons q rest ih =>
      intro acc p hp
      rcases List.mem_cons.mp hp with hp | hp
      · subst hp
        exact fold_insert_preserves f rest _ _ (insertName_self acc (f p))
      · exact ih _ p hp

/-- The dropped member of a correlated pair is one of the pair. -/
theorem corrChooseDrop_mem (n : List Col) (tgt : Option String) (p : Col × Col) :
    corrChooseDrop n tgt p = p.1.name ∨ corrChooseDrop n tgt p = p.2.name := by
  rw [corrChooseDrop]
  by_cases h : targetIn tgt n
  · rw [if_pos h]
    cases hf : n.find? fun c => (some c.name : Option String) = tgt with
    | none => exact Or.inr rfl
    | some tc =>
        dsimp only
        by_cases hlt : corrAbsLt p.1.vals p.2.vals tc.vals
        · rw [if_pos hlt]; exact Or.inl rfl
        · rw [if_neg hlt]; exact Or.inr rfl
  · rw [if_neg h]; exact Or.inr rfl

/-- Both members of a reported correlated pair are frame columns. -/
theorem pairs_mem_cols {t : ℚ} : ∀ {l : List Col} {p : Col × Col},
    p ∈ find_highly_correlated_pairs t l → p.1 ∈ l ∧ p.2 ∈ l := by
  intro l
  induction l with
  | nil => intro p hp; simp [find_highly_correlated_pairs] at hp
  | cons c rest ih =>
      intro p hp
      rw [find_highly_correlated_pairs] at hp
      rcases List.mem_append.mp hp with hp | hp
      · obtain ⟨d, hd, hdp⟩ := List.mem_filterMap.mp hp
        by_cases hgt : corrAbsGt d.vals c.vals t
        · rw [if_pos hgt] at hdp
          cases hdp
          exact ⟨List.mem_cons_of_mem _ hd, List.mem_cons_self _ _⟩
        · rw [if_neg hgt] at hdp
          cases hdp
      · obtain ⟨h1, h2⟩ := ih hp
        exact ⟨List.mem_cons_of_mem _ h1, List.mem_cons_of_mem _ h2⟩

/-- Correlated pairs of a sublist are pairs of the full list (the pair
enumeration respects relative order). -/
theorem pairs_mono {t : ℚ} {l1 l2 : List Col} (hsub : l1.Sublist l2) :
    ∀ {p : Col × Col}, p ∈ find_highly_correlated_pairs t l1 →
      p ∈ find_highly_correlated_pairs t l2 := by
  induction hsub with
  | slnil => intro p hp; simp [find_highly_correlated_pairs] at hp
  | cons c hsub ih =>
      intro p hp
      rw [find_highly_correlated_pairs]
      exact List.mem_append_right _ (ih hp)
  | cons₂ c hsub ih =>
      intro p hp
      rw [find_highly_correlated_pairs] at hp ⊢
      rcases List.mem_append.mp hp with hp | hp
      · obtain ⟨d, hd, hdp⟩ := List.mem_filterMap.mp hp
        refine List.mem_append_left _ (List.mem_filterMap.mpr ⟨d, hsub.mem hd, hdp⟩)
      · exact List.mem_append_right _ (ih hp)

/-- Unfolding of `select_numeric_features` at a present target. -/
theorem select_some_eq (df : List Col) (t : String) :
    select_numeric_features df (some t) =
      if targetIn (some t) (df.filter fun c => c.dtype.isNumeric)
      then (df.filter fun c => c.dtype.isNumeric).filter fun c => c.name ≠ t
      else df.filter fun c => c.dtype.isNumeric := rfl

/-- Unfolding of `select_numeric_features` without a target. -/
theorem select_none_eq (df : List Col) :
    select_numeric_features df none = df.filter fun c => c.dtype.isNumeric := rfl

/-- Encoding then selecting numeric features is monotone in the sublist
order (the target test can only newly pass on the larger frame, in which
case the smaller frame is unaffected by the extra target filter). -/
theorem select_encode_sublist {df1 df2 : List Col} (tgt : Option String)
    (hsub : df1.Sublist df2) :
    (select_numeric_features (encode_nominal_features df1) tgt).Sublist
      (select_numeric_features (encode_nominal_features df2) tgt) := by
  have henc : (encode_nominal_features df1).Sublist (encode_nominal_features df2) :=
    hsub.map encodeCol
  have hnum : ((encode_nominal_features df1).filter fun c => c.dtype.isNumeric).Sublist
      ((encode_nominal_features df2).filter fun c => c.dtype.isNumeric) :=
    henc.filter _
  cases tgt with
  | none => rw [select_none_eq, select_none_eq]; exact hnum
  | some t =>
      rw [select_some_eq, select_some_eq]
      by_cases h1 : targetIn (some t)
          ((encode_nominal_features df1).filter fun c => c.dtype.isNumeric)
      · have h2 : targetIn (some t)
            ((encode_nominal_features df2).filter fun c => c.dtype.isNumeric) = true := by
          simp only [targetIn, Bool.and_eq_true] at h1 ⊢
          obtain ⟨hne, hmem⟩ := h1
          refine ⟨hne, ?_⟩
          rw [memStr_iff] at hmem ⊢
          obtain ⟨c, hc, hcn⟩ := List.mem_map.mp hmem
          exact List.mem_map.mpr ⟨c, hnum.mem hc, hcn⟩
        rw [if_pos h1, if_pos h2]
        exact hnum.filter _
      · rw [if_neg h1]
        by_cases h2 : targetIn (some t)
            ((encode_nominal_features df2).filter fun c => c.dtype.isNumeric)
        · rw [if_pos h2]
          have hall : ∀ c ∈ (encode_nominal_features df1).filter
              (fun c => c.dtype.isNumeric), decide (c.name ≠ t) = true := by
            intro c hc
            simp only [decide_eq_true_eq, ne_eq]
            intro hceq
            apply h1
            simp only [targetIn, Bool.and_eq_true]
            constructor
            · simp only [targetIn, Bool.and_eq_true] at h2
              exact h2.1
            · rw [memStr_iff]
              exact List.mem_map.mpr ⟨c, hc, hceq⟩
          have heq : ((encode_nominal_features df1).filter
                fun c => c.dtype.isNumeric).filter (fun c => c.name ≠ t)
              = (encode_nominal_features df1).filter fun c => c.dtype.isNumeric :=
            List.filter_eq_self.mpr hall
          rw [← heq]
          exact hnum.filter _
        · rw [if_neg h2]
          exact hnum

/-- Unfolding of `drop_correlated_columns`. -/
theorem drop_corr_eq (df : List Col) (t : ℚ) (tgt : Option String) :
    drop_correlated_columns df t tgt =
      if dfEmptyB (select_numeric_features (encode_nominal_features df) tgt)
      then (df, [])
      else
        (df.filter fun c => !memStr c.name
            ((find_highly_correlated_pairs t
                (select_numeric_features (encode_nominal_features df) tgt)).foldl
              (fun acc p => insertName acc
                (corrChooseDrop
                  (select_numeric_features (encode_nominal_features df) tgt) tgt p)) []),
          (find_highly_correlated_pairs t
              (select_numeric_features (encode_nominal_features df) tgt)).foldl
            (fun acc p => insertName acc
              (corrChooseDrop
                (select_numeric_features (encode_nominal_features df) tgt) tgt p)) []) := rfl

/-- Label encoding keeps the column length. -/
theorem encodeCol_len (c : Col) : (encodeCol c).vals.length = c.vals.length := by
  cases c with
  | mk nm dt vs => cases dt <;> simp [encodeCol]

/-- Selected numeric features are frame columns. -/
theorem mem_select_sub {df : List Col} {tgt : Option String} {c : Col}
    (hc : c ∈ select_numeric_features df tgt) : c ∈ df := by
  cases tgt with
  | none =>
      rw [select_none_eq] at hc
      exact (List.mem_filter.mp hc).1
  | some t =>
      rw [select_some_eq] at hc
      by_cases h : targetIn (some t) (df.filter fun c => c.dtype.isNumeric)
      · rw [if_pos h] at hc
        exact (List.mem_filter.mp (List.mem_filter.mp hc).1).1
      · rw [if_neg h] at hc
        exact (List.mem_filter.mp hc).1

/-- A selected numeric feature of the encoded frame is the encoding of
an original column. -/
theorem mem_select_encode {l : List Col} {tgt : Option String} {c : Col}
    (hc : c ∈ select_numeric_features (encode_nominal_features l) tgt) :
    ∃ d ∈ l, c = encodeCol d := by
  have hm := mem_select_sub hc
  rw [encode_nominal_features] at hm
  obtain ⟨d, hd, hdc⟩ := List.mem_map.mp hm
  exact ⟨d, hd, hdc.symm⟩

/-- A survivor of the uniformity stage fails the uniformity condition. -/
theorem uniform_survivor {df : List Col} {t : ℚ} {c : Col}
    (hc : c ∈ (drop_highly_uniform_columns df t).1) :
    uniformPred t c = false ∧ c ∈ df := by
  have hc' : c ∈ df.filter
      (fun c => !memStr c.name ((df.filter (uniformPred t)).map Col.name)) := hc
  obtain ⟨hmem, hcond⟩ := List.mem_filter.mp hc'
  refine ⟨?_, hmem⟩
  by_contra hne
  rw [Bool.not_eq_false] at hne
  have hin : c.name ∈ (df.filter (uniformPred t)).map Col.name :=
    List.mem_map.mpr ⟨c, List.mem_filter.mpr ⟨hmem, hne⟩, rfl⟩
  rw [memStr_iff.mpr hin] at hcond
  simp at hcond

/-- A survivor of the missingness stage fails the missingness condition. -/
theorem missing_survivor {df : List Col} {t : ℚ} {c : Col}
    (hc : c ∈ (drop_columns_with_missing_threshold df t).1) :
    missingPred t c = false ∧ c ∈ df := by
  have hc' : c ∈ df.filter
      (fun c => !memStr c.name ((df.filter (missingPred t)).map Col.name)) := hc
  obtain ⟨hmem, hcond⟩ := List.mem_filter.mp hc'
  refine ⟨?_, hmem⟩
  by_contra hne
  rw [Bool.not_eq_false] at hne
  have hin : c.name ∈ (df.filter (missingPred t)).map Col.name :=
    List.mem_map.mpr ⟨c, List.mem_filter.mpr ⟨hmem, hne⟩, rfl⟩
  rw [memStr_iff.mpr hin] at hcond
  simp at hcond

/-- A survivor of the correlation stage is not in the stage's drop set. -/
theorem corr_survivor {df : List Col} {t : ℚ} {tgt : Option String} {c : Col}
    (hc : c ∈ (drop_correlated_columns df t tgt).1) :
    memStr c.name (drop_correlated_columns df t tgt).2 = false ∧ c ∈ df := by
  rw [drop_corr_eq] at hc ⊢
  by_cases h0 : dfEmptyB (select_numeric_features (encode_nominal_features df) tgt)
  · rw [if_pos h0] at hc ⊢
    exact ⟨rfl, hc⟩
  · rw [if_neg h0] at hc ⊢
    obtain ⟨hmem, hcond⟩ := List.mem_filter.mp hc
    refine ⟨?_, hmem⟩
    simp only [Bool.not_eq_true'] at hcond
    exact hcond

/-- The uniformity stage returns a sublist of its input. -/
theorem drop_uniform_sublist (df : List Col) (t : ℚ) :
    (drop_highly_uniform_columns df t).1.Sublist df :=
  List.filter_sublist df

/-- The missingness stage returns a sublist of its input. -/
theorem drop_missing_sublist (df : List Col) (t : ℚ) :
    (drop_columns_with_missing_threshold df t).1.Sublist df :=
  List.filter_sublist df

/-- The correlation stage returns a sublist of its input. -/
theorem drop_corr_sublist (df : List Col) (t : ℚ) (tgt : Option String) :
    (drop_correlated_columns df t tgt).1.Sublist df := by
  rw [drop_corr_eq]
  by_cases h0 : dfEmptyB (select_numeric_features (encode_nominal_features df) tgt)
  · rw [if_pos h0]
  · rw [if_neg h0]
    exact List.filter_sublist df

/-- The uniformity stage is the identity on a frame with no offending
column. -/
theorem uniform_nodrop {df : List Col} {t : ℚ}
    (h : ∀ c ∈ df, uniformPred t c = false) :
    drop_highly_uniform_columns df t = (df, []) := by
  have hnil : df.filter (uniformPred t) = [] :=
    List.filter_eq_nil_iff.mpr fun c hc => by simp [h c hc]
  show (df.filter fun c => !memStr c.name ((df.filter (uniformPred t)).map Col.name),
        (df.filter (uniformPred t)).map Col.name) = (df, [])
  rw [hnil]
  simp [memStr]

/-- The missingness stage is the identity on a frame with no offending
column. -/
theorem missing_nodrop {df : List Col} {t : ℚ}
    (h : ∀ c ∈ df, missingPred t c = false) :
    drop_columns_with_missing_threshold df t = (df, []) := by
  have hnil : df.filter (missingPred t) = [] :=
    List.filter_eq_nil_iff.mpr fun c hc => by simp [h c hc]
  show (df.filter fun c => !memStr c.name ((df.filter (missingPred t)).map Col.name),
        (df.filter (missingPred t)).map Col.name) = (df, [])
  rw [hnil]
  simp [memStr]

/-- On a rectangular sublist of correlation-stage survivors, a second
correlation stage drops nothing: any correlated pair among the survivors
would already appear among the first run's pairs, so one member's name
would be in the first run's drop set, contradicting survival. -/
theorem corr_second_run {df df1 : List Col} {t : ℚ} {tgt : Option String} (n : Nat)
    (hlen : ∀ c ∈ df, c.vals.length = n)
    (hsub : df1.Sublist df)
    (hsurv : ∀ c ∈ df1, memStr c.name (drop_correlated_columns df t tgt).2 = false) :
    drop_correlated_columns df1 t tgt = (df1, []) := by
  have hE : (select_numeric_features (encode_nominal_features df1) tgt).Sublist
      (select_numeric_features (encode_nominal_features df) tgt) :=
    select_encode_sublist tgt hsub
  rw [drop_corr_eq]
  by_cases hE1 : dfEmptyB (select_numeric_features (encode_nominal_features df1) tgt)
  · rw [if_pos hE1]
  · rw [if_neg hE1]
    have hE0 : dfEmptyB (select_numeric_features (encode_nominal_features df) tgt)
        = false := by
      by_contra h0
      rw [Bool.not_eq_false] at h0
      cases hEdf : select_numeric_features (encode_nominal_features df) tgt with
      | nil =>
          apply hE1
          have h4 : (select_numeric_features (encode_nominal_features df1) tgt).Sublist
              ([] : List Col) := by rw [← hEdf]; exact hE
          rw [List.sublist_nil.mp h4]
          rfl
      | cons c rest =>
          rw [hEdf] at h0
          have hcvals : c.vals = [] := by
            simpa [dfEmptyB, List.isEmpty_iff] using h0
          have hcmem : c ∈ select_numeric_features (encode_nominal_features df) tgt := by
            rw [hEdf]; exact List.mem_cons_self _ _
          obtain ⟨d, hd, hcd⟩ := mem_select_encode hcmem
          have h1 := hlen d hd
          have h2 : c.vals.length = d.vals.length := by rw [hcd, encodeCol_len]
          rw [hcvals] at h2
          simp only [List.length_nil] at h2
          have hn0 : n = 0 := by omega
          apply hE1
          cases hEdf1 : select_numeric_features (encode_nominal_features df1) tgt with
          | nil => rfl
          | cons c2 rest2 =>
              have hc2 : c2 ∈ select_numeric_features
                  (encode_nominal_features df1) tgt := by
                rw [hEdf1]; exact List.mem_cons_self _ _
              obtain ⟨d1, hd1, hc2d⟩ := mem_select_encode hc2
              have hlen2 : c2.vals.length = 0 := by
                rw [hc2d, encodeCol_len, hlen d1 (hsub.mem hd1), hn0]
              have h3 : c2.vals = [] := List.length_eq_zero.mp hlen2
              simp [dfEmptyB, h3]
    have hpairs : find_highly_correlated_pairs t
        (select_numeric_features (encode_nominal_features df1) tgt) = [] := by
      cases hp : find_highly_correlated_pairs t
          (select_numeric_features (encode_nominal_features df1) tgt) with
      | nil => rfl
      | cons q qs =>
          exfalso
          have hq : q ∈ find_highly_correlated_pairs t
              (select_numeric_features (encode_nominal_features df1) tgt) := by
            rw [hp]; exact List.mem_cons_self _ _
          have hq' := pairs_mono hE hq
          have hfold : corrChooseDrop
              (select_numeric_features (encode_nominal_features df) tgt) tgt q
              ∈ (find_highly_correlated_pairs t
                  (select_numeric_features (encode_nominal_features df) tgt)).foldl
                (fun acc p => insertName acc
                  (corrChooseDrop
                    (select_numeric_features (encode_nominal_features df) tgt) tgt p))
                [] :=
            fold_insert_adds
              (corrChooseDrop
                (select_numeric_features (encode_nominal_features df) tgt) tgt)
              _ [] q hq'
          have h2 : memStr (corrChooseDrop
                (select_numeric_features (encode_nominal_features df) tgt) tgt q)
              (drop_correlated_columns df t tgt).2 = true := by
            rw [drop_corr_eq,
              if_neg (show ¬ dfEmptyB
                  (select_numeric_features (encode_nominal_features df) tgt) = true by
                rw [hE0]; exact Bool.false_ne_true)]
            exact memStr_iff.mpr hfold
          obtain ⟨hq1, hq2⟩ := pairs_mem_cols hq
          rcases corrChooseDrop_mem
              (select_numeric_features (encode_nominal_features df) tgt) tgt q with
            hname | hname
          · obtain ⟨d, hd, hqd⟩ := mem_select_encode hq1
            have hdn : q.1.name = d.name := by rw [hqd, encodeCol_name]
            rw [hname, hdn, hsurv d hd] at h2
            exact Bool.false_ne_true h2
          · obtain ⟨d, hd, hqd⟩ := mem_select_encode hq2
            have hdn : q.2.name = d.name := by rw [hqd, encodeCol_name]
            rw [hname, hdn, hsurv d hd] at h2
            exact Bool.false_ne_true h2
    rw [hpairs]
    simp only [List.foldl_nil]
    have hfil : (df1.filter fun c => !memStr c.name []) = df1 :=
      List.filter_eq_self.mpr fun c _ => by simp [memStr]
    rw [hfil]

/-- C6 (amended): for every rectangular frame that the five value/type
preprocessing stages leave unchanged, running `CSVCleaner.run` a second
time on its own output with identical thresholds is a no-op: the second
run drops no column in any of the three pruning stages and returns the
first run's frame. -/
theorem cleaner_second_run_noop (df : List Col) (ids : List String)
    (missT uniT corrT : ℚ) (tgt : Option String) (n : Nat)
    (hlen : ∀ c ∈ df, c.vals.length = n)
    (hfix : preprocessAll ids df = df) :
    csvCleanerRun (csvCleanerRun df ids missT uniT corrT tgt).df
        ids missT uniT corrT tgt
      = ⟨(csvCleanerRun df ids missT uniT corrT tgt).df, [], [], []⟩ := by
  have hmem : ∀ c ∈ df, preprocessCol ids c = c := preprocess_fix_mem hfix
  have hr1 : (csvCleanerRun df ids missT uniT corrT tgt).df
      = (drop_columns_with_missing_threshold
          (drop_highly_uniform_columns
            (drop_correlated_columns df corrT tgt).1 uniT).1 missT).1 := by
    simp only [csvCleanerRun, hfix]
  rw [hr1]
  set df1 := (drop_correlated_columns df corrT tgt).1 with hdf1
  set df2 := (drop_highly_uniform_columns df1 uniT).1 with hdf2
  set df3 := (drop_columns_with_missing_threshold df2 missT).1 with hdf3
  have hm3 : ∀ c ∈ df3, c ∈ df2 := by
    rw [hdf3]; exact fun c hc => (missing_survivor hc).2
  have hm2 : ∀ c ∈ df2, c ∈ df1 := by
    rw [hdf2]; exact fun c hc => (uniform_survivor hc).2
  have hm1 : ∀ c ∈ df1, c ∈ df := by
    rw [hdf1]; exact fun c hc => (corr_survivor hc).2
  have hfix3 : preprocessAll ids df3 = df3 :=
    preprocess_fix_of_mem hmem fun c hc => hm1 _ (hm2 _ (hm3 _ hc))
  have hsub3 : df3.Sublist df := by
    rw [hdf3, hdf2, hdf1]
    exact ((drop_missing_sublist _ _).trans (drop_uniform_sublist _ _)).trans
      (drop_corr_sublist _ _ _)
  have hsurvC : ∀ c ∈ df3,
      memStr c.name (drop_correlated_columns df corrT tgt).2 = false := by
    intro c hc
    have h1 : c ∈ df1 := hm2 _ (hm3 _ hc)
    rw [hdf1] at h1
    exact (corr_survivor h1).1
  have hcorr2 : drop_correlated_columns df3 corrT tgt = (df3, []) :=
    corr_second_run n hlen hsub3 hsurvC
  have huni2 : drop_highly_uniform_columns df3 uniT = (df3, []) := by
    apply uniform_nodrop
    intro c hc
    have h1 : c ∈ df2 := hm3 _ hc
    rw [hdf2] at h1
    exact (uniform_survivor h1).1
  have hmiss2 : drop_columns_with_missing_threshold df3 missT = (df3, []) := by
    apply missing_nodrop
    intro c hc
    rw [hdf3] at hc
    exact (missing_survivor hc).1
  simp only [csvCleanerRun, hfix3, hcorr2, huni2, hmiss2]

set_option maxHeartbeats 1600000 in
/-- C6 counterexample: on the frame with the single object column
`a = ["9999", "123"]`, the first run (missing threshold 0.4, uniformity
and correlation thresholds 1.0, no target) drops nothing — preprocessing
turns the column numeric with values 9999 and 123 — but the second run's
preprocessing masks the large sentinel 9999 to missing, making the column
fully uniform, and the second run drops it.  Running the cleaner twice is
therefore not a no-op. -/
theorem cleaner_second_run_drops :
    (csvCleanerRun c6df [] (4/10) 1 1 none).droppedCorr = [] ∧
    (csvCleanerRun c6df [] (4/10) 1 1 none).droppedUniform = [] ∧
    (csvCleanerRun c6df [] (4/10) 1 1 none).droppedMissing = [] ∧
    (csvCleanerRun (csvCleanerRun c6df [] (4/10) 1 1 none).df
        [] (4/10) 1 1 none).droppedUniform = ["a"] := by
  have hpre1 : preprocessAll [] c6df
      = [⟨"a", .numeric, [.num 9999, .num 123]⟩] := by
    norm_num [preprocessAll, clean_all_names_and_values, cleanAllNamesCol, cleanNameStr,
      cleanValStr, valPyStr, pyReplace, replAux, prefB, pyStrip, isPySpace,
      replace_missing_invalid, replaceMissingInvalidCol, clean_large_values,
      cleanLargeValuesCol, sanitize_newlines, sanitizeNewlinesCol, replNewlines,
      enforce_numeric_or_category, enforceNumericCol, parseVal, parseNumStr, digitsToNat,
      c6df, Val.isMissing, memStr, DType.isNumeric]
    simp [isPySpace]
  have huni1 : drop_highly_uniform_columns
      [(⟨"a", .numeric, [.num 9999, .num 123]⟩ : Col)] 1
      = ([⟨"a", .numeric, [.num 9999, .num 123]⟩], []) := by
    norm_num [drop_highly_uniform_columns, uniformPred, validCount, topFreq,
      distinctVals, valEqB, Val.isMissing, memStr]
  have hmiss1 : drop_columns_with_missing_threshold
      [(⟨"a", .numeric, [.num 9999, .num 123]⟩ : Col)] (4/10)
      = ([⟨"a", .numeric, [.num 9999, .num 123]⟩], []) := by
    norm_num [drop_columns_with_missing_threshold, missingPred, Val.isMissing, memStr]
  have hrun1 : csvCleanerRun c6df [] (4/10) 1 1 none
      = ⟨[⟨"a", .numeric, [.num 9999, .num 123]⟩], [], [], []⟩ := by
    simp only [csvCleanerRun, hpre1, drop_corr_at_one, huni1, hmiss1]
  have hpre2 : preprocessAll [] [(⟨"a", .numeric, [.num 9999, .num 123]⟩ : Col)]
      = [⟨"a", .numeric, [.missing, .num 123]⟩] := by
    norm_num [preprocessAll, clean_all_names_and_values, cleanAllNamesCol, cleanNameStr,
      cleanValStr, valPyStr, pyReplace, replAux, prefB, pyStrip, isPySpace,
      replace_missing_invalid, replaceMissingInvalidCol, clean_large_values,
      cleanLargeValuesCol, sanitize_newlines, sanitizeNewlinesCol, replNewlines,
      enforce_numeric_or_category, enforceNumericCol, parseVal, parseNumStr, digitsToNat,
      Val.isMissing, memStr, DType.isNumeric]
    simp [isPySpace]
  have huni2 : drop_highly_uniform_columns
      [(⟨"a", .numeric, [.missing, .num 123]⟩ : Col)] 1
      = ([], ["a"]) := by
    norm_num [drop_highly_uniform_columns, uniformPred, validCount, topFreq,
      distinctVals, valEqB, Val.isMissing, memStr]
  refine ⟨?_, ?_, ?_, ?_⟩
  · rw [hrun1]
  · rw [hrun1]
  · rw [hrun1]
  · rw [hrun1]
    simp only [csvCleanerRun, hpre2, drop_corr_at_one, huni2]

/-- C6 witness: the amended theorem applied to a one-column numeric frame
fixed by the preprocessing. -/
theorem cleaner_second_run_noop_witness :
    csvCleanerRun (csvCleanerRun c6fixdf [] (4/10) 1 1 none).df [] (4/10) 1 1 none
      = ⟨(csvCleanerRun c6fixdf [] (4/10) 1 1 none).df, [], [], []⟩ :=
  cleaner_second_run_noop c6fixdf [] (4/10) 1 1 none 2
    (fun c hc => by simp [c6fixdf] at hc; subst hc; rfl)
    (by
      norm_num [preprocessAll, clean_all_names_and_values, cleanAllNamesCol,
        cleanNameStr, pyReplace, replAux, prefB, pyStrip, isPySpace,
        replace_missing_invalid, replaceMissingInvalidCol, clean_large_values,
        cleanLargeValuesCol, sanitize_newlines, sanitizeNewlinesCol,
        enforce_numeric_or_category, enforceNumericCol, parseVal, c6fixdf,
        Val.isMissing, memStr, DType.isNumeric]
      simp [isPySpace])

end Pisa
